import Mathlib

/-
Shallow embedding of the TankEngine allocator header (src/Allocators.h).

Memory is modelled at byte granularity: a `Pool`'s single backing allocation
(`pPoolBlockStart`) is a list of bytes (`Nat`s below 256).  The occupancy
bitmap (`pLut`) occupies indices `[0, capacity / 8)` of the block and the
object region (`pMem`) occupies the rest, exactly as laid out by
`Pool::Pool(elementSize, poolCapacity)`.  Addresses are represented as byte
offsets from the block start; the object-region base `pMem` is offset
`capacity / 8`.  All `uint64_t` arithmetic of the source is carried out in
`Nat` with an explicit reduction modulo `2 ^ 64` wherever the source can wrap.

`FixedTypeAllocator<Type, Size, Reallocates, ThreadSafe>` is modelled with
`ThreadSafe = false` (the mutex is the only thing that constexpr flag guards;
the claims under study are about the sequential behaviour).  The element type
`Type` enters the model through two parameters: `tySize = sizeof(Type)` (the
stride of all `Type*` pointer arithmetic) and `defBytes`, the byte image that
the placement `new (p) Type()` leaves in the slot.
-/

set_option maxHeartbeats 1000000
set_option maxRecDepth 100000

namespace TankAlloc

/-- Modulus of the `uint64_t` arithmetic used by the source for `size`,
`capacity` and offsets. -/
def U64 : Nat := 2 ^ 64

/-- Read the byte at offset `i` of a raw block.  The allocator zero-fills every
block it hands out (`AlignedAllocator::Alloc` ends with `memset 0`), so reads
default to `0`. -/
def byteAt (l : List Nat) (i : Nat) : Nat := l.getD i 0

/-- Semantics of `std::memcpy(dst + off, src, src.length)` on byte blocks:
overwrite `vs.length` bytes of `l` starting at offset `off`. -/
def writeBytes (l : List Nat) (off : Nat) (vs : List Nat) : List Nat :=
  l.take off ++ vs ++ l.drop (off + vs.length)

/-- `Alc::OffsetPtr<Type>`: a handle made of a slot `offset` and the owning
container pointer `pContainer`.  `none` models the null container of the
default-constructed handle; a bound container is identified by the key under
which its pool is stored (a lone `FixedTypeAllocator` uses key 0, the
general-purpose allocator uses the size class). -/
structure OPtr where
  offset : Nat
  container : Option Nat
deriving DecidableEq

/-- The default-constructed `OffsetPtr` (null container, offset 0). -/
def OPtr.unbound : OPtr := ⟨0, none⟩

/-- `OffsetPtr::ZeroOut`: reset to the unbound state. -/
def OPtr.zeroOut (_ : OPtr) : OPtr := OPtr.unbound

/-- `Alc::Pool`: one contiguous backing allocation.  `block` is the whole
allocation starting at `pPoolBlockStart`; the look-up table `pLut` is its
prefix of `capacity / 8` bytes and the object region `pMem` starts at offset
`capacity / 8`. -/
structure Pool where
  capacity : Nat
  size : Nat
  poolItemSize : Nat
  block : List Nat
deriving DecidableEq

/-- Byte offset of the object region base `pMem` inside the block. -/
def Pool.memStart (p : Pool) : Nat := p.capacity / 8

/-- Bitmap bit for slot `k`: bit `k % 8` of look-up-table byte `k / 8`.  This
is the bit every operation of the source addresses for an in-range slot. -/
def Pool.bit (p : Pool) (k : Nat) : Bool :=
  Nat.testBit (byteAt p.block (k / 8)) (k % 8)

/-- Number of set bits among the `capacity` bitmap bits (the popcount of the
occupancy bitmap). -/
def Pool.liveCount (p : Pool) : Nat :=
  ((List.range p.capacity).filter (fun k => p.bit k)).length

/-- Structural well-formedness of a pool block, as established by the
constructor and maintained by the operations: the block has exactly
`capacity / 8 + poolItemSize * capacity` bytes, `capacity` is a multiple of 8
(enforced by the `constexpr_mod<Size, 8>` template guard), and every byte is
an actual `uint8_t` value. -/
def Pool.wf (p : Pool) : Prop :=
  p.block.length = p.capacity / 8 + p.poolItemSize * p.capacity ∧
  p.capacity % 8 = 0 ∧
  ∀ b ∈ p.block, b < 256

instance (p : Pool) : Decidable p.wf := by
  unfold Pool.wf; infer_instance

/-- `Pool::Pool(elementSize, poolCapacity)`: allocate and zero-fill
`poolCapacity / 8 + elementSize * poolCapacity` bytes. -/
def Pool.create (elementSize poolCapacity : Nat) : Pool :=
  { capacity := poolCapacity
    size := 0
    poolItemSize := elementSize
    block := List.replicate (poolCapacity / 8 + elementSize * poolCapacity) 0 }

/-- `Pool::Reallocate`: double `capacity`, allocate a zero-filled block of the
new size, `memcpy` the old look-up table to the front and the old object
region to offset `newCapacity / 8`, and drop the old block. -/
def Pool.Reallocate (p : Pool) : Pool :=
  let capacity2 := (p.capacity * 2) % U64
  let fresh := List.replicate (capacity2 / 8 + p.poolItemSize * capacity2) 0
  let b1 := writeBytes fresh 0 (p.block.take (p.capacity / 8))
  let b2 := writeBytes b1 (capacity2 / 8)
    ((p.block.drop (p.capacity / 8)).take (p.poolItemSize * p.capacity))
  { p with capacity := capacity2, block := b2 }

/-- Errors a pool operation can raise: `std::bad_alloc` from the exhausted
bitmap scan (and from size-class resolution), `std::out_of_range` from the
bounds check in `Pop`. -/
inductive AllocError
  | badAlloc
  | outOfRange
deriving DecidableEq

/-- Inner loop of the bitmap scan of `FixedTypeAllocator::Get`: the first
`j < 8` whose flag `1 << j` is clear in byte `b` (`~byte & flag`). -/
def findClearBitInByte (b : Nat) : Option Nat :=
  (List.range 8).find? (fun j => ! Nat.testBit b j)

/-- Outer loop of the bitmap scan: first clear bit over a list of look-up-table
bytes, as slot index `i * 8 + j`. -/
def scanBytes (bs : List Nat) : Option Nat :=
  match bs with
  | [] => none
  | b :: rest =>
    match findClearBitInByte b with
    | some j => some j
    | none => (scanBytes rest).map (fun idx => idx + 8)

namespace FTA

/-- Slot-claiming part of `FixedTypeAllocator<Type>::Get` (the code after the
capacity check): scan the `capacity / 8` look-up-table bytes for the first
clear bit, set it, increment `size`, placement-construct a `Type` at
`pMem + idx` (byte offset `memStart + idx * tySize`, bytes `defBytes`) and
return a handle on `(container, idx)`.  An exhausted scan throws
`std::bad_alloc`. -/
def getScan (tySize : Nat) (defBytes : List Nat) (cid : Nat) (p : Pool) :
    Except AllocError (OPtr × Pool) :=
  match scanBytes (p.block.take (p.capacity / 8)) with
  | none => Except.error AllocError.badAlloc
  | some idx =>
    let lutByte := byteAt p.block (idx / 8)
    let block1 := p.block.set (idx / 8) (lutByte ||| 2 ^ (idx % 8))
    let block2 := writeBytes block1 (p.memStart + idx * tySize) defBytes
    Except.ok (⟨idx, some cid⟩, { p with block := block2, size := (p.size + 1) % U64 })

/-- `FixedTypeAllocator<Type, Size, Reallocates, false>::Get`: if
`size + 1 > capacity` either reallocate (growth permitted; the
growth-notification callback is a side-effect-free default) or return the
default-constructed handle; then run the bitmap scan. -/
def Get (reallocates : Bool) (tySize : Nat) (defBytes : List Nat) (cid : Nat)
    (p : Pool) : Except AllocError (OPtr × Pool) :=
  if (p.size + 1) % U64 > p.capacity then
    if reallocates then getScan tySize defBytes cid p.Reallocate
    else Except.ok (OPtr.unbound, p)
  else getScan tySize defBytes cid p

/-- `FixedTypeAllocator<Type>::Pop(element)`: resolve the handle to
`pElement = pMem + offset` (`Type` stride, so `offset * tySize` bytes past
`pMem`), throw `std::out_of_range` if it is past `pMem + capacity`, otherwise
address look-up-table byte `(index / 8) % capacity` and flag `1 << (index % 8)`
(both 0 when `index == 0`); if the flag is set, flip it, decrement `size`,
destroy the element (trivial on the byte image) and zero the caller's handle,
else fall through silently, returning the handle and pool untouched. -/
def Pop (tySize : Nat) (p : Pool) (element : OPtr) :
    Except AllocError (OPtr × Pool) :=
  if p.capacity * tySize < element.offset * tySize then
    Except.error AllocError.outOfRange
  else
    let index := element.offset
    let boxIdx := if index = 0 then 0 else (index / 8) % p.capacity
    let boxOffset := if index = 0 then 0 else index % 8
    let flag := 2 ^ boxOffset
    let box := byteAt p.block boxIdx
    if Nat.testBit box boxOffset then
      Except.ok (element.zeroOut,
        { p with block := p.block.set boxIdx (box ^^^ flag)
                 size := (p.size + (U64 - 1)) % U64 })
    else
      Except.ok (element, p)

/-- `FixedTypeAllocator<Type, Size>::ForAllActive`: walk slots `0` to
`capacity - 1` in order and invoke the visitor on `pMem + i` exactly when bit
`i % 8` of look-up-table byte `(i / 8) % Size` is set (byte 0 / bit 0 when
`i == 0`).  The model returns the list of visited slot indices, in visit
order. -/
def forAllActiveIdx (Size : Nat) (p : Pool) : List Nat :=
  (List.range p.capacity).filter (fun i =>
    let boxIdx := if i = 0 then 0 else (i / 8) % Size
    let boxOffset := if i = 0 then 0 else i % 8
    Nat.testBit (byteAt p.block boxIdx) boxOffset)

/-- `FixedTypeAllocator<Type>::ForAllFast`: visit every slot `0` to
`capacity - 1` unconditionally, in order. -/
def forAllFastIdx (p : Pool) : List Nat :=
  List.range p.capacity

end FTA

/-- `GeneralPurposeAllocator::ResolvePool<Type>`: linear scan of
`m_SubPoolSizes` in declaration order for the first class with
`sizeof(Type) <= class`; `std::bad_alloc` when none fits. -/
def ResolvePool (subPoolSizes : List Nat) (typeSize : Nat) :
    Except AllocError Nat :=
  match subPoolSizes with
  | [] => Except.error AllocError.badAlloc
  | s :: rest => if typeSize ≤ s then Except.ok s else ResolvePool rest typeSize

/-- `Alc::GeneralPurposeAllocator` state: the configured class sizes
`m_SubPoolSizes` (in pack order) and the `m_Pools` map from class size to the
class's pool. -/
structure Gpa where
  classes : List Nat
  pools : List (Nat × Pool)
deriving DecidableEq

/-- Look up `m_Pools[s]` (a missing key yields the default-constructed
pool, as `std::map::operator[]` would create). -/
def Gpa.getPool (g : Gpa) (s : Nat) : Pool :=
  ((g.pools.find? (fun q => q.1 == s)).map (fun q => q.2)).getD ⟨0, 0, 0, []⟩

/-- Store a pool back under key `s`. -/
def Gpa.setPool (g : Gpa) (s : Nat) (p : Pool) : Gpa :=
  { g with pools := g.pools.map (fun q => if q.1 = s then (s, p) else q) }

/-- `GeneralPurposeAllocator` construction: `AddPools<Size>()` for every
configured class builds a `FixedTypeAllocator<Padding<Size>, PoolSize>`, whose
pool is `Pool(sizeof(Padding<Size>), PoolSize) = Pool(Size, PoolSize)`. -/
def Gpa.init (classes : List Nat) (poolSize : Nat) : Gpa :=
  { classes := classes
    pools := classes.map (fun s => (s, Pool.create s poolSize)) }

/-- Class resolution as performed inside `GeneralPurposeAllocator::New`. -/
def Gpa.classForNew (classes : List Nat) (typeSize : Nat) :
    Except AllocError Nat :=
  ResolvePool classes typeSize

/-- Class resolution as performed inside `GeneralPurposeAllocator::Delete`. -/
def Gpa.classForDelete (classes : List Nat) (typeSize : Nat) :
    Except AllocError Nat :=
  ResolvePool classes typeSize

/-- `GeneralPurposeAllocator::New<Type>`: resolve the class, call `Get` on that
class's pool through `FixedTypeAllocator<Padding<sizeof(Type)>>` — so the slot
stride is `sizeof(Type)` and the constructed value image is the
value-initialised (all zero) `Padding<sizeof(Type)>` — and rewrap the returned
offset in a handle whose container is the class pool. -/
def Gpa.New (reallocates : Bool) (g : Gpa) (tySize : Nat) :
    Except AllocError (OPtr × Gpa) :=
  match Gpa.classForNew g.classes tySize with
  | Except.error e => Except.error e
  | Except.ok s =>
    match FTA.Get reallocates tySize (List.replicate tySize 0) s (g.getPool s) with
    | Except.error e => Except.error e
    | Except.ok (inner, p1) => Except.ok (⟨inner.offset, some s⟩, g.setPool s p1)

/-- `GeneralPurposeAllocator::Delete<Type>(oPtr)`: resolve the class, rebuild a
class-typed handle `sized` carrying `oPtr.Internal()`, `Pop` it on the class
pool (its mutation of `sized` is discarded) and finally `ZeroOut` the caller's
handle. -/
def Gpa.Delete (g : Gpa) (tySize : Nat) (oPtr : OPtr) :
    Except AllocError (Gpa × OPtr) :=
  match Gpa.classForDelete g.classes tySize with
  | Except.error e => Except.error e
  | Except.ok s =>
    match FTA.Pop tySize (g.getPool s) ⟨oPtr.offset, some s⟩ with
    | Except.error e => Except.error e
    | Except.ok (_, p1) => Except.ok (g.setPool s p1, oPtr.zeroOut)

/-- A contiguous byte segment of a block: `len` bytes starting at `off`. -/
def segment (l : List Nat) (off len : Nat) : List Nat := (l.drop off).take len

/-- The bytes a handle on slot `i` resolves to under element stride `stride`:
`Resolve` returns `pMem + i` as a `Type*`, i.e. the `stride` bytes at block
offset `memStart + i * stride`, recomputed against the pool's current base. -/
def Pool.slotBytes (p : Pool) (stride i : Nat) : List Nat :=
  segment p.block (p.memStart + i * stride) stride

/-! Byte-block lemmas: reading through `List.set`, `writeBytes` and
`List.replicate`, used to track what each allocator operation does to the
backing block. -/

theorem byteAt_replicate_zero (n i : Nat) : byteAt (List.replicate n 0) i = 0 := by
  unfold byteAt
  rw [List.getD_eq_getElem?_getD, List.getElem?_replicate]
  by_cases h : i < n <;> simp [h]

theorem byteAt_set_self {l : List Nat} {i : Nat} (h : i < l.length) (v : Nat) :
    byteAt (l.set i v) i = v := by
  unfold byteAt
  rw [List.getD_eq_getElem?_getD, List.getElem?_set_self', List.getElem?_eq_getElem h]
  rfl

theorem byteAt_set_ne {l : List Nat} {i j : Nat} (h : i ≠ j) (v : Nat) :
    byteAt (l.set i v) j = byteAt l j := by
  unfold byteAt
  rw [List.getD_eq_getElem?_getD, List.getD_eq_getElem?_getD, List.getElem?_set_ne h]

theorem byteAt_append_left {l1 l2 : List Nat} {j : Nat} (h : j < l1.length) :
    byteAt (l1 ++ l2) j = byteAt l1 j := by
  unfold byteAt
  exact List.getD_append l1 l2 0 j h

theorem byteAt_append_right {l1 l2 : List Nat} {j : Nat} (h : l1.length ≤ j) :
    byteAt (l1 ++ l2) j = byteAt l2 (j - l1.length) := by
  unfold byteAt
  exact List.getD_append_right l1 l2 0 j h

theorem byteAt_take {l : List Nat} {n j : Nat} (h : j < n) :
    byteAt (l.take n) j = byteAt l j := by
  unfold byteAt
  rw [List.getD_eq_getElem?_getD, List.getD_eq_getElem?_getD, List.getElem?_take]
  simp [h]

theorem byteAt_drop (l : List Nat) (n j : Nat) :
    byteAt (l.drop n) j = byteAt l (n + j) := by
  unfold byteAt
  rw [List.getD_eq_getElem?_getD, List.getD_eq_getElem?_getD, List.getElem?_drop]

theorem length_writeBytes {l vs : List Nat} {off : Nat}
    (h : off + vs.length ≤ l.length) : (writeBytes l off vs).length = l.length := by
  unfold writeBytes
  simp only [List.length_append, List.length_take, List.length_drop]
  omega

theorem byteAt_writeBytes_lt {l vs : List Nat} {off j : Nat}
    (hj : j < off) (hoff : off ≤ l.length) :
    byteAt (writeBytes l off vs) j = byteAt l j := by
  unfold writeBytes
  rw [List.append_assoc, byteAt_append_left, byteAt_take hj]
  rw [List.length_take]
  omega

theorem byteAt_writeBytes_mid {l vs : List Nat} {off t : Nat}
    (ht : t < vs.length) (hoff : off ≤ l.length) :
    byteAt (writeBytes l off vs) (off + t) = byteAt vs t := by
  unfold writeBytes
  have hlt : (l.take off).length = off := by
    simp [List.length_take, Nat.min_eq_left hoff]
  rw [List.append_assoc, byteAt_append_right (by omega), hlt,
    Nat.add_sub_cancel_left, byteAt_append_left ht]

theorem byteAt_writeBytes_ge {l vs : List Nat} {off j : Nat}
    (hj : off + vs.length ≤ j) (hoff : off ≤ l.length) :
    byteAt (writeBytes l off vs) j = byteAt l j := by
  unfold writeBytes
  rw [List.append_assoc, byteAt_append_right, byteAt_append_right]
  · rw [byteAt_drop]
    congr 1
    simp only [List.length_take, Nat.min_eq_left hoff]
    omega
  · simp only [List.length_take]
    omega
  · simp only [List.length_take]
    omega

theorem take_writeBytes {l vs : List Nat} {off n : Nat}
    (hn : n ≤ off) (hoff : off ≤ l.length) :
    (writeBytes l off vs).take n = l.take n := by
  unfold writeBytes
  rw [List.append_assoc, List.take_append_of_le_length, List.take_take,
    Nat.min_eq_left hn]
  simp only [List.length_take]
  omega

theorem mem_writeBytes {l vs : List Nat} {off : Nat} {b : Nat}
    (h : b ∈ writeBytes l off vs) : b ∈ l ∨ b ∈ vs := by
  unfold writeBytes at h
  rcases List.mem_append.mp h with h1 | h2
  · rcases List.mem_append.mp h1 with h3 | h4
    · exact Or.inl (List.mem_of_mem_take h3)
    · exact Or.inr h4
  · exact Or.inl (List.mem_of_mem_drop h2)

theorem byteAt_lt_of_bounded {l : List Nat} (hb : ∀ b ∈ l, b < 256) (i : Nat) :
    byteAt l i < 256 := by
  unfold byteAt
  by_cases h : i < l.length
  · rw [List.getD_eq_getElem?_getD, List.getElem?_eq_getElem h]
    exact hb _ (List.getElem_mem h)
  · rw [List.getD_eq_getElem?_getD, List.getElem?_eq_none (by omega)]
    norm_num

/-! Bitmap-bit lemmas: the effect of `*pLut |= flag` and `*pBox ^= flag` on the
individual bitmap bits. -/

theorem testBit_byte_set_lor (l : List Nat) (idx : Nat) (hlen : idx / 8 < l.length)
    (k : Nat) :
    Nat.testBit (byteAt (l.set (idx / 8) (byteAt l (idx / 8) ||| 2 ^ (idx % 8))) (k / 8))
        (k % 8)
      = (decide (k = idx) || Nat.testBit (byteAt l (k / 8)) (k % 8)) := by
  by_cases hdiv : k / 8 = idx / 8
  · rw [hdiv, byteAt_set_self hlen, Nat.testBit_lor]
    by_cases heq : k = idx
    · subst heq
      simp [Nat.testBit_two_pow_self]
    · have hmod : k % 8 ≠ idx % 8 := by omega
      rw [Nat.testBit_two_pow_of_ne (fun h => hmod h.symm)]
      simp [heq]
  · have hne : k ≠ idx := fun h => hdiv (by rw [h])
    rw [byteAt_set_ne (fun h => hdiv h.symm)]
    simp [hne]

theorem testBit_byte_set_xor (l : List Nat) (idx : Nat) (hlen : idx / 8 < l.length)
    (hset : Nat.testBit (byteAt l (idx / 8)) (idx % 8) = true) (k : Nat) :
    Nat.testBit
        (byteAt (l.set (idx / 8) ((byteAt l (idx / 8)) ^^^ (2 ^ (idx % 8)))) (k / 8))
        (k % 8)
      = (!(decide (k = idx)) && Nat.testBit (byteAt l (k / 8)) (k % 8)) := by
  by_cases hdiv : k / 8 = idx / 8
  · rw [hdiv, byteAt_set_self hlen, Nat.testBit_xor]
    by_cases heq : k = idx
    · subst heq
      simp [hset, Nat.testBit_two_pow_self]
    · have hmod : k % 8 ≠ idx % 8 := by omega
      rw [Nat.testBit_two_pow_of_ne (fun h => hmod h.symm)]
      simp [heq]
  · have hne : k ≠ idx := fun h => hdiv (by rw [h])
    rw [byteAt_set_ne (fun h => hdiv h.symm)]
    simp [hne]

/-! Popcount lemmas: counting set bits through `List.range`/`List.filter`. -/

theorem count_le (n : Nat) (f : Nat → Bool) :
    ((List.range n).filter f).length ≤ n := by
  calc ((List.range n).filter f).length ≤ (List.range n).length :=
        List.length_filter_le _ _
  _ = n := List.length_range n

theorem all_true_of_count_eq {n : Nat} {f : Nat → Bool}
    (h : ((List.range n).filter f).length = n) : ∀ k < n, f k = true := by
  intro k hk
  have hsub : (List.range n).filter f = List.range n :=
    (List.filter_sublist _).eq_of_length (by rw [h, List.length_range])
  have hmem : k ∈ (List.range n).filter f := by
    rw [hsub]
    exact List.mem_range.mpr hk
  exact (List.mem_filter.mp hmem).2

theorem count_lt_of_false {n k : Nat} {f : Nat → Bool} (hk : k < n)
    (hf : f k = false) : ((List.range n).filter f).length < n := by
  rcases Nat.lt_or_ge (((List.range n).filter f).length) n with h | h
  · exact h
  · exfalso
    have heq : ((List.range n).filter f).length = n :=
      Nat.le_antisymm (count_le n f) h
    have := all_true_of_count_eq heq k hk
    rw [hf] at this
    exact Bool.false_ne_true this

theorem count_pos_of_true {n k : Nat} {f : Nat → Bool} (hk : k < n)
    (hf : f k = true) : 0 < ((List.range n).filter f).length := by
  have hmem : k ∈ (List.range n).filter f :=
    List.mem_filter.mpr ⟨List.mem_range.mpr hk, hf⟩
  cases hfil : (List.range n).filter f with
  | nil => rw [hfil] at hmem; cases hmem
  | cons a l => simp [hfil]

theorem count_congr {n : Nat} {f g : Nat → Bool} (h : ∀ k < n, f k = g k) :
    ((List.range n).filter f).length = ((List.range n).filter g).length := by
  rw [List.filter_congr (fun a ha => h a (List.mem_range.mp ha))]

theorem count_flip {n i : Nat} {f g : Nat → Bool} (hidx : i < n)
    (hagree : ∀ k < n, k ≠ i → g k = f k) (hf : f i = false)
    (hg : g i = true) :
    ((List.range n).filter g).length = ((List.range n).filter f).length + 1 := by
  induction n with
  | zero => omega
  | succ m ih =>
    rw [List.range_succ, List.filter_append, List.filter_append,
      List.length_append, List.length_append]
    by_cases hm : i = m
    · subst hm
      have hcongr : ((List.range i).filter f).length
          = ((List.range i).filter g).length :=
        count_congr (fun k hk =>
          (hagree k (Nat.lt_succ_of_lt hk) (Nat.ne_of_lt hk)).symm)
      simp [hf, hg, hcongr]
    · have hidx' : i < m := by omega
      have hgm : g m = f m := hagree m (Nat.lt_succ_self m) (fun h => hm h.symm)
      rw [ih hidx' (fun k hk hne => hagree k (Nat.lt_succ_of_lt hk) hne)]
      cases hfm : f m <;> simp [List.filter_cons, hgm, hfm]

/-! Arithmetic of the wrapping `uint64_t` counters. -/

theorem mod_U64_eq {n : Nat} (h : n < U64) : n % U64 = n := Nat.mod_eq_of_lt h

theorem dec_U64 {n : Nat} (h1 : 1 ≤ n) (h2 : n < U64) :
    (n + (U64 - 1)) % U64 = n - 1 := by
  have hpos : 0 < U64 := by norm_num [U64]
  have hsplit : n + (U64 - 1) = (n - 1) + U64 := by omega
  rw [hsplit, Nat.add_mod_right, Nat.mod_eq_of_lt (by omega)]

/-- Bits of the truncated look-up table agree with the pool's bitmap bits for
in-range slots. -/
theorem bit_eq_lut {p : Pool} (h8 : p.capacity % 8 = 0) {k : Nat}
    (hk : k < p.capacity) :
    Nat.testBit (byteAt (p.block.take (p.capacity / 8)) (k / 8)) (k % 8)
      = p.bit k := by
  unfold Pool.bit
  rw [byteAt_take (by omega)]

/-! Specification of the first-fit bitmap scan of `Get`. -/

theorem find?_range_eq_some {n : Nat} {pr : Nat → Bool} {j : Nat}
    (h : (List.range n).find? pr = some j) :
    j < n ∧ pr j = true ∧ ∀ k < j, pr k = false := by
  induction n generalizing pr j with
  | zero => simp [List.range_zero] at h
  | succ m ih =>
    rw [List.range_succ_eq_map] at h
    by_cases h0 : pr 0
    · rw [List.find?_cons_of_pos _ h0] at h
      cases h
      exact ⟨Nat.succ_pos m, h0, fun k hk => absurd hk (Nat.not_lt_zero k)⟩
    · rw [List.find?_cons_of_neg _ (by simpa using h0), List.find?_map] at h
      rcases Option.map_eq_some'.mp h with ⟨j', hj', hsucc⟩
      obtain ⟨hj'm, hpr, hmin⟩ := ih hj'
      subst hsucc
      refine ⟨Nat.succ_lt_succ hj'm, hpr, ?_⟩
      intro k hk
      match k with
      | 0 => simpa using h0
      | k' + 1 => exact hmin k' (Nat.lt_of_succ_lt_succ hk)

theorem findClearBitInByte_some {b j : Nat} (h : findClearBitInByte b = some j) :
    j < 8 ∧ Nat.testBit b j = false ∧ ∀ k < j, Nat.testBit b k = true := by
  obtain ⟨hj, hpr, hmin⟩ := find?_range_eq_some h
  refine ⟨hj, by simpa using hpr, ?_⟩
  intro k hk
  simpa using hmin k hk

theorem findClearBitInByte_none {b : Nat} (h : findClearBitInByte b = none) :
    ∀ j < 8, Nat.testBit b j = true := by
  intro j hj
  have := List.find?_eq_none.mp h j (List.mem_range.mpr hj)
  simpa using this

theorem scanBytes_some {bs : List Nat} {idx : Nat} (h : scanBytes bs = some idx) :
    idx < 8 * bs.length ∧
    Nat.testBit (byteAt bs (idx / 8)) (idx % 8) = false ∧
    ∀ k < idx, Nat.testBit (byteAt bs (k / 8)) (k % 8) = true := by
  induction bs generalizing idx with
  | nil => simp [scanBytes] at h
  | cons b rest ih =>
    simp only [scanBytes] at h
    cases hf : findClearBitInByte b with
    | some j =>
      rw [hf] at h
      simp only [Option.some.injEq] at h
      subst h
      obtain ⟨hj8, hbit, hmin⟩ := findClearBitInByte_some hf
      refine ⟨by simp [List.length_cons]; omega, ?_, ?_⟩
      · rw [Nat.div_eq_of_lt hj8, Nat.mod_eq_of_lt hj8]
        simpa [byteAt] using hbit
      · intro k hk
        have hk8 : k < 8 := Nat.lt_trans hk hj8
        rw [Nat.div_eq_of_lt hk8, Nat.mod_eq_of_lt hk8]
        simpa [byteAt] using hmin k hk
    | none =>
      rw [hf] at h
      have hall := findClearBitInByte_none hf
      cases hs : scanBytes rest with
      | none => rw [hs] at h; simp at h
      | some idx' =>
        rw [hs] at h
        simp only [Option.map_some', Option.some.injEq] at h
        obtain ⟨h1, h2, h3⟩ := ih hs
        subst h
        refine ⟨by simp [List.length_cons]; omega, ?_, ?_⟩
        · have hdiv : (idx' + 8) / 8 = idx' / 8 + 1 := by omega
          have hmod : (idx' + 8) % 8 = idx' % 8 := by omega
          rw [hdiv, hmod]
          simpa [byteAt] using h2
        · intro k hk
          by_cases hk8 : k < 8
          · rw [Nat.div_eq_of_lt hk8, Nat.mod_eq_of_lt hk8]
            simpa [byteAt] using hall k hk8
          · have hk' : k - 8 < idx' := by omega
            have hh := h3 (k - 8) hk'
            have hdiv : k / 8 = (k - 8) / 8 + 1 := by omega
            have hmod : k % 8 = (k - 8) % 8 := by omega
            rw [hdiv, hmod]
            simpa [byteAt] using hh

theorem scanBytes_none {bs : List Nat} (h : scanBytes bs = none) :
    ∀ k < 8 * bs.length, Nat.testBit (byteAt bs (k / 8)) (k % 8) = true := by
  induction bs with
  | nil => intro k hk; simp at hk
  | cons b rest ih =>
    simp only [scanBytes] at h
    cases hf : findClearBitInByte b with
    | some j => rw [hf] at h; simp at h
    | none =>
      rw [hf] at h
      have hall := findClearBitInByte_none hf
      cases hs : scanBytes rest with
      | some idx' => rw [hs] at h; simp at h
      | none =>
        intro k hk
        by_cases hk8 : k < 8
        · rw [Nat.div_eq_of_lt hk8, Nat.mod_eq_of_lt hk8]
          simpa [byteAt] using hall k hk8
        · have hk' : k - 8 < 8 * rest.length := by
            simp only [List.length_cons] at hk
            omega
          have hh := ih hs (k - 8) hk'
          have hdiv : k / 8 = (k - 8) / 8 + 1 := by omega
          have hmod : k % 8 = (k - 8) % 8 := by omega
          rw [hdiv, hmod]
          simpa [byteAt] using hh

theorem scanBytes_isSome_of_clear {bs : List Nat} {k : Nat} (hk : k < 8 * bs.length)
    (hbit : Nat.testBit (byteAt bs (k / 8)) (k % 8) = false) :
    ∃ idx, scanBytes bs = some idx := by
  cases hs : scanBytes bs with
  | some idx => exact ⟨idx, rfl⟩
  | none =>
    exfalso
    have := scanBytes_none hs k hk
    rw [hbit] at this
    exact Bool.false_ne_true this

/-! Behaviour of the slot-claiming part of `Get`. -/

theorem FTA.getScan_spec (tySize cid : Nat) (defBytes : List Nat) (p : Pool)
    (hwf : p.wf) (hty : defBytes.length = tySize)
    (htyle : tySize ≤ p.poolItemSize)
    (hfree : ∃ k, k < p.capacity ∧ p.bit k = false) :
    ∃ idx p1,
      FTA.getScan tySize defBytes cid p = Except.ok (⟨idx, some cid⟩, p1) ∧
      idx < p.capacity ∧ p.bit idx = false ∧ (∀ k < idx, p.bit k = true) ∧
      p1.capacity = p.capacity ∧ p1.poolItemSize = p.poolItemSize ∧
      p1.size = (p.size + 1) % U64 ∧
      p1.block.length = p.block.length ∧
      (∀ k < p.capacity, p1.bit k = (decide (k = idx) || p.bit k)) ∧
      (∀ t < tySize,
        byteAt p1.block (p.memStart + idx * tySize + t) = byteAt defBytes t) ∧
      (∀ j, p.memStart + idx * tySize + tySize ≤ j →
        byteAt p1.block j = byteAt p.block j) ∧
      (∀ j, j < p.memStart + idx * tySize → j ≠ idx / 8 →
        byteAt p1.block j = byteAt p.block j) ∧
      p1.liveCount = p.liveCount + 1 := by
  obtain ⟨hlen, h8, hb⟩ := hwf
  obtain ⟨k0, hk0, hbit0⟩ := hfree
  have hms : p.memStart = p.capacity / 8 := rfl
  have htake : (p.block.take (p.capacity / 8)).length = p.capacity / 8 := by
    rw [List.length_take]
    omega
  have hex : ∃ idx, scanBytes (p.block.take (p.capacity / 8)) = some idx := by
    apply scanBytes_isSome_of_clear (k := k0)
    · omega
    · rw [bit_eq_lut h8 hk0]
      exact hbit0
  obtain ⟨idx, hscan⟩ := hex
  obtain ⟨hidx8, hclear, hmin⟩ := scanBytes_some hscan
  have hidxcap : idx < p.capacity := by omega
  have hbitidx : p.bit idx = false := by
    rw [← bit_eq_lut h8 hidxcap]
    exact hclear
  have hminbit : ∀ k < idx, p.bit k = true := by
    intro k hk
    rw [← bit_eq_lut h8 (Nat.lt_trans hk hidxcap)]
    exact hmin k hk
  have hdivcap : idx / 8 < p.capacity / 8 := by omega
  have hdivblock : idx / 8 < p.block.length := by omega
  have hA : idx * tySize + tySize ≤ p.capacity * tySize := by
    have h1 : (idx + 1) * tySize ≤ p.capacity * tySize :=
      Nat.mul_le_mul_right tySize (Nat.succ_le_of_lt hidxcap)
    rw [Nat.succ_mul] at h1
    exact h1
  have hB : p.capacity * tySize ≤ p.poolItemSize * p.capacity := by
    rw [Nat.mul_comm p.capacity tySize]
    exact Nat.mul_le_mul_right p.capacity htyle
  have hoffb : p.memStart + idx * tySize + defBytes.length ≤ p.block.length := by
    simp only [Pool.memStart]
    rw [hty]
    omega
  have hlen1 : (p.block.set (idx / 8)
      (byteAt p.block (idx / 8) ||| 2 ^ (idx % 8))).length = p.block.length := by
    simp
  have hchar : ∀ k < p.capacity,
      Nat.testBit (byteAt (writeBytes
          (p.block.set (idx / 8) (byteAt p.block (idx / 8) ||| 2 ^ (idx % 8)))
          (p.memStart + idx * tySize) defBytes) (k / 8)) (k % 8)
        = (decide (k = idx) || p.bit k) := by
    intro k hk
    rw [byteAt_writeBytes_lt (by simp only [Pool.memStart]; omega)
      (by rw [hlen1]; omega)]
    exact testBit_byte_set_lor p.block idx hdivblock k
  refine ⟨idx,
    { p with
      block := writeBytes
        (p.block.set (idx / 8) (byteAt p.block (idx / 8) ||| 2 ^ (idx % 8)))
        (p.memStart + idx * tySize) defBytes,
      size := (p.size + 1) % U64 },
    ?_, hidxcap, hbitidx, hminbit, rfl, rfl, rfl, ?_, ?_, ?_, ?_, ?_, ?_⟩
  · simp only [FTA.getScan, hscan]
  · show (writeBytes _ _ _).length = p.block.length
    rw [length_writeBytes (by rw [hlen1]; exact hoffb)]
    exact hlen1
  · intro k hk
    show Nat.testBit _ _ = _
    exact hchar k hk
  · intro t ht
    show byteAt (writeBytes _ _ _) _ = _
    exact byteAt_writeBytes_mid (by omega) (by rw [hlen1]; omega)
  · intro j hj
    show byteAt (writeBytes _ _ _) j = byteAt p.block j
    have hge : p.memStart + idx * tySize + defBytes.length ≤ j := by omega
    have hoffle : p.memStart + idx * tySize
        ≤ (p.block.set (idx / 8)
            (byteAt p.block (idx / 8) ||| 2 ^ (idx % 8))).length := by
      rw [hlen1]
      omega
    rw [byteAt_writeBytes_ge hge hoffle]
    exact byteAt_set_ne (by omega) _
  · intro j hj hne
    show byteAt (writeBytes _ _ _) j = byteAt p.block j
    rw [byteAt_writeBytes_lt hj (by rw [hlen1]; omega)]
    exact byteAt_set_ne (fun h => hne h.symm) _
  · show Pool.liveCount _ = p.liveCount + 1
    simp only [Pool.liveCount]
    exact count_flip hidxcap
      (fun k hk hne => by
        show Pool.bit _ k = Pool.bit p k
        simp only [Pool.bit]
        rw [hchar k hk]
        simp [hne, Pool.bit])
      (by simpa using hbitidx)
      (by
        show Pool.bit _ idx = true
        simp only [Pool.bit]
        rw [hchar idx hidxcap]
        simp)

/-! Behaviour of `Pool::Reallocate`. -/

theorem Pool.Reallocate_spec (p : Pool) (hwf : p.wf)
    (hcap : p.capacity * 2 < U64) :
    (p.Reallocate).capacity = p.capacity * 2 ∧
    (p.Reallocate).size = p.size ∧
    (p.Reallocate).poolItemSize = p.poolItemSize ∧
    (p.Reallocate).wf ∧
    (∀ j < p.capacity / 8, byteAt (p.Reallocate).block j = byteAt p.block j) ∧
    (∀ j, p.capacity / 8 ≤ j → j < p.capacity * 2 / 8 →
      byteAt (p.Reallocate).block j = 0) ∧
    (∀ t < p.poolItemSize * p.capacity,
      byteAt (p.Reallocate).block (p.capacity * 2 / 8 + t)
        = byteAt p.block (p.capacity / 8 + t)) ∧
    (∀ k < p.capacity, (p.Reallocate).bit k = p.bit k) ∧
    (∀ k, p.capacity ≤ k → k < p.capacity * 2 → (p.Reallocate).bit k = false) ∧
    (p.Reallocate).liveCount = p.liveCount := by
  obtain ⟨hlen, h8, hb⟩ := hwf
  have hmod : (p.capacity * 2) % U64 = p.capacity * 2 := mod_U64_eq hcap
  have hmc2 : p.poolItemSize * (p.capacity * 2)
      = p.poolItemSize * p.capacity * 2 := by ring
  have hre : p.Reallocate = { p with
      capacity := p.capacity * 2,
      block := writeBytes
        (writeBytes
          (List.replicate (p.capacity * 2 / 8 + p.poolItemSize * (p.capacity * 2)) 0)
          0 (p.block.take (p.capacity / 8)))
        (p.capacity * 2 / 8)
        ((p.block.drop (p.capacity / 8)).take (p.poolItemSize * p.capacity)) } := by
    simp only [Pool.Reallocate, hmod]
  have hlut : (p.block.take (p.capacity / 8)).length = p.capacity / 8 := by
    rw [List.length_take]
    omega
  have hfreshlen : (List.replicate
      (p.capacity * 2 / 8 + p.poolItemSize * (p.capacity * 2)) 0).length
      = p.capacity * 2 / 8 + p.poolItemSize * (p.capacity * 2) :=
    List.length_replicate _ _
  have hb1len : (writeBytes
      (List.replicate (p.capacity * 2 / 8 + p.poolItemSize * (p.capacity * 2)) 0)
      0 (p.block.take (p.capacity / 8))).length
      = p.capacity * 2 / 8 + p.poolItemSize * (p.capacity * 2) := by
    rw [length_writeBytes]
    · exact hfreshlen
    · rw [hfreshlen, hlut]
      omega
  have hb1 : ∀ j, byteAt (writeBytes
      (List.replicate (p.capacity * 2 / 8 + p.poolItemSize * (p.capacity * 2)) 0)
      0 (p.block.take (p.capacity / 8))) j
      = if j < p.capacity / 8 then byteAt p.block j else 0 := by
    intro j
    unfold writeBytes
    rw [List.take_zero, List.nil_append, Nat.zero_add]
    by_cases hj : j < p.capacity / 8
    · rw [byteAt_append_left (by rw [hlut]; exact hj), byteAt_take hj, if_pos hj]
    · rw [byteAt_append_right (by rw [hlut]; omega), if_neg hj, byteAt_drop,
        byteAt_replicate_zero]
  have hmemlen : ((p.block.drop (p.capacity / 8)).take
      (p.poolItemSize * p.capacity)).length = p.poolItemSize * p.capacity := by
    rw [List.length_take, List.length_drop]
    omega
  have hwrite2 : p.capacity * 2 / 8 + ((p.block.drop (p.capacity / 8)).take
      (p.poolItemSize * p.capacity)).length
      ≤ p.capacity * 2 / 8 + p.poolItemSize * (p.capacity * 2) := by
    rw [hmemlen]
    omega
  have hcopyLut : ∀ j < p.capacity / 8, byteAt (p.Reallocate).block j
      = byteAt p.block j := by
    intro j hj
    rw [hre]
    show byteAt (writeBytes _ _ _) j = _
    rw [byteAt_writeBytes_lt (by omega) (by rw [hb1len]; omega), hb1, if_pos hj]
  have hzeroLut : ∀ j, p.capacity / 8 ≤ j → j < p.capacity * 2 / 8 →
      byteAt (p.Reallocate).block j = 0 := by
    intro j hj1 hj2
    rw [hre]
    show byteAt (writeBytes _ _ _) j = 0
    rw [byteAt_writeBytes_lt hj2 (by rw [hb1len]; omega), hb1, if_neg (by omega)]
  have hcopyMem : ∀ t < p.poolItemSize * p.capacity,
      byteAt (p.Reallocate).block (p.capacity * 2 / 8 + t)
        = byteAt p.block (p.capacity / 8 + t) := by
    intro t ht
    rw [hre]
    show byteAt (writeBytes _ _ _) _ = _
    rw [byteAt_writeBytes_mid (by rw [hmemlen]; exact ht)
      (by rw [hb1len]; omega)]
    rw [byteAt_take (by rw [hmemlen] at *; exact ht), byteAt_drop]
  have hbitkeep : ∀ k < p.capacity, (p.Reallocate).bit k = p.bit k := by
    intro k hk
    show Nat.testBit (byteAt (p.Reallocate).block (k / 8)) (k % 8) = _
    rw [hcopyLut (k / 8) (by omega)]
    rfl
  have hbitnew : ∀ k, p.capacity ≤ k → k < p.capacity * 2 →
      (p.Reallocate).bit k = false := by
    intro k hk1 hk2
    show Nat.testBit (byteAt (p.Reallocate).block (k / 8)) (k % 8) = false
    rw [hzeroLut (k / 8) (by omega) (by omega)]
    exact Nat.zero_testBit _
  have hwfnew : (p.Reallocate).wf := by
    refine ⟨?_, ?_, ?_⟩
    · rw [hre]
      show (writeBytes _ _ _).length = _
      rw [length_writeBytes (by rw [hb1len]; exact hwrite2), hb1len]
    · rw [hre]
      show p.capacity * 2 % 8 = 0
      omega
    · rw [hre]
      intro b hbmem
      rcases mem_writeBytes hbmem with h1 | h2
      · rcases mem_writeBytes h1 with h3 | h4
        · rw [List.eq_of_mem_replicate h3]
          norm_num
        · exact hb b (List.mem_of_mem_take h4)
      · exact hb b (List.mem_of_mem_drop (List.mem_of_mem_take h2))
  have h2c : p.capacity * 2 = p.capacity + p.capacity := by ring
  have hcount : (p.Reallocate).liveCount = p.liveCount := by
    show ((List.range (p.Reallocate).capacity).filter
        (fun k => (p.Reallocate).bit k)).length = _
    have hc2 : (p.Reallocate).capacity = p.capacity * 2 := by rw [hre]
    rw [hc2, h2c, List.range_add, List.filter_append, List.length_append]
    have hsecond : ((List.range p.capacity).map (p.capacity + ·)).filter
        (fun k => (p.Reallocate).bit k) = [] := by
      rw [List.filter_eq_nil_iff]
      intro a ha
      rcases List.mem_map.mp ha with ⟨i, hi, rfl⟩
      rw [hbitnew (p.capacity + i) (by omega)
        (by have := List.mem_range.mp hi; omega)]
      simp
    rw [hsecond]
    simp only [List.length_nil, Nat.add_zero]
    rw [List.filter_congr (fun a ha =>
      hbitkeep a (List.mem_range.mp ha))]
    rfl
  exact ⟨by rw [hre], by rw [hre], by rw [hre], hwfnew, hcopyLut, hzeroLut,
    hcopyMem, hbitkeep, hbitnew, hcount⟩

/-! Behaviour of `Pop`. -/

theorem FTA.Pop_ok_of_le (tySize : Nat) (p : Pool) (el : OPtr)
    (hin : el.offset ≤ p.capacity) :
    ∃ r, FTA.Pop tySize p el = Except.ok r := by
  simp only [FTA.Pop]
  rw [if_neg (Nat.not_lt.mpr (Nat.mul_le_mul_right tySize hin))]
  by_cases hbit : Nat.testBit
      (byteAt p.block (if el.offset = 0 then 0 else el.offset / 8 % p.capacity))
      (if el.offset = 0 then 0 else el.offset % 8)
  · rw [if_pos hbit]
    exact ⟨_, rfl⟩
  · rw [if_neg hbit]
    exact ⟨_, rfl⟩

theorem FTA.Pop_error_iff (tySize : Nat) (ht : 0 < tySize) (p : Pool)
    (el : OPtr) :
    FTA.Pop tySize p el = Except.error AllocError.outOfRange
      ↔ p.capacity < el.offset := by
  constructor
  · intro h
    by_contra hlt
    obtain ⟨r, hr⟩ := FTA.Pop_ok_of_le tySize p el (Nat.not_lt.mp hlt)
    rw [h] at hr
    cases hr
  · intro h
    simp only [FTA.Pop]
    rw [if_pos (Nat.mul_lt_mul_of_lt_of_le h (Nat.le_refl tySize) ht)]

theorem FTA.Pop_clear (tySize : Nat) (p : Pool) (el : OPtr)
    (hin : el.offset ≤ p.capacity)
    (hclear : Nat.testBit
      (byteAt p.block (if el.offset = 0 then 0 else el.offset / 8 % p.capacity))
      (if el.offset = 0 then 0 else el.offset % 8) = false) :
    FTA.Pop tySize p el = Except.ok (el, p) := by
  simp only [FTA.Pop]
  rw [if_neg (Nat.not_lt.mpr (Nat.mul_le_mul_right tySize hin)),
    if_neg (by rw [hclear]; exact Bool.false_ne_true)]

theorem FTA.Pop_live (tySize : Nat) (p : Pool) (el : OPtr)
    (h8 : p.capacity % 8 = 0) (hlen : p.capacity / 8 ≤ p.block.length)
    (hoff : el.offset < p.capacity) (hbit : p.bit el.offset = true) :
    ∃ p1, FTA.Pop tySize p el = Except.ok (OPtr.unbound, p1) ∧
      p1.capacity = p.capacity ∧ p1.poolItemSize = p.poolItemSize ∧
      p1.size = (p.size + (U64 - 1)) % U64 ∧
      p1.block.length = p.block.length ∧
      p1.bit el.offset = false ∧
      (∀ k, k ≠ el.offset → p1.bit k = p.bit k) ∧
      p1.liveCount = p.liveCount - 1 := by
  have hbox : (if el.offset = 0 then (0 : Nat) else el.offset / 8 % p.capacity)
      = el.offset / 8 := by
    by_cases h0 : el.offset = 0
    · simp [h0]
    · rw [if_neg h0, Nat.mod_eq_of_lt (by omega)]
  have hboff : (if el.offset = 0 then (0 : Nat) else el.offset % 8)
      = el.offset % 8 := by
    by_cases h0 : el.offset = 0
    · simp [h0]
    · rw [if_neg h0]
  have hguard : ¬ p.capacity * tySize < el.offset * tySize :=
    Nat.not_lt.mpr (Nat.mul_le_mul_right tySize (Nat.le_of_lt hoff))
  have hdb : el.offset / 8 < p.block.length := by omega
  have hchar := testBit_byte_set_xor p.block el.offset hdb hbit
  refine ⟨{ p with
      block := p.block.set (el.offset / 8)
        (byteAt p.block (el.offset / 8) ^^^ 2 ^ (el.offset % 8)),
      size := (p.size + (U64 - 1)) % U64 },
    ?_, rfl, rfl, rfl, by simp, ?_, ?_, ?_⟩
  · simp only [FTA.Pop, hbox, hboff]
    rw [if_neg hguard,
      if_pos (show (byteAt p.block (el.offset / 8)).testBit (el.offset % 8) = true
        from hbit)]
    rfl
  · show Nat.testBit (byteAt (p.block.set (el.offset / 8)
        (byteAt p.block (el.offset / 8) ^^^ 2 ^ (el.offset % 8)))
        (el.offset / 8)) (el.offset % 8) = false
    rw [hchar el.offset]
    simp
  · intro k hk
    show Nat.testBit (byteAt (p.block.set (el.offset / 8)
        (byteAt p.block (el.offset / 8) ^^^ 2 ^ (el.offset % 8)))
        (k / 8)) (k % 8) = p.bit k
    rw [hchar k]
    simp [hk, Pool.bit]
  · have hflip := count_flip (n := p.capacity) (i := el.offset)
      (f := fun k => Nat.testBit
        (byteAt (p.block.set (el.offset / 8)
          (byteAt p.block (el.offset / 8) ^^^ 2 ^ (el.offset % 8))) (k / 8)) (k % 8))
      (g := fun k => p.bit k) hoff
      (fun k hk hne => by
        show p.bit k = Nat.testBit (byteAt (p.block.set (el.offset / 8)
          (byteAt p.block (el.offset / 8) ^^^ 2 ^ (el.offset % 8))) (k / 8)) (k % 8)
        rw [hchar k]
        simp [hne, Pool.bit])
      (by
        show Nat.testBit (byteAt (p.block.set (el.offset / 8)
          (byteAt p.block (el.offset / 8) ^^^ 2 ^ (el.offset % 8)))
          (el.offset / 8)) (el.offset % 8) = false
        rw [hchar el.offset]
        simp)
      hbit
    show ((List.range p.capacity).filter (fun k => Nat.testBit
        (byteAt (p.block.set (el.offset / 8)
          (byteAt p.block (el.offset / 8) ^^^ 2 ^ (el.offset % 8))) (k / 8))
        (k % 8))).length = p.liveCount - 1
    have heq : p.liveCount = ((List.range p.capacity).filter (fun k => Nat.testBit
        (byteAt (p.block.set (el.offset / 8)
          (byteAt p.block (el.offset / 8) ^^^ 2 ^ (el.offset % 8))) (k / 8))
        (k % 8))).length + 1 := hflip
    omega

/-! Behaviour of `Get`. -/

theorem FTA.Get_spec (r : Bool) (tySize cid : Nat) (defBytes : List Nat)
    (p : Pool) (hwf : p.wf) (hinv : p.size = p.liveCount)
    (hcap : p.capacity < U64) (hty : defBytes.length = tySize)
    (htyle : tySize ≤ p.poolItemSize)
    (hfree : ∃ k, k < p.capacity ∧ p.bit k = false) :
    ∃ idx p1,
      FTA.Get r tySize defBytes cid p = Except.ok (⟨idx, some cid⟩, p1) ∧
      idx < p.capacity ∧ p.bit idx = false ∧ (∀ k < idx, p.bit k = true) ∧
      p1.capacity = p.capacity ∧ p1.poolItemSize = p.poolItemSize ∧
      p1.size = p.size + 1 ∧
      p1.block.length = p.block.length ∧
      (∀ k < p.capacity, p1.bit k = (decide (k = idx) || p.bit k)) ∧
      (∀ t < tySize,
        byteAt p1.block (p.memStart + idx * tySize + t) = byteAt defBytes t) ∧
      (∀ j, p.memStart + idx * tySize + tySize ≤ j →
        byteAt p1.block j = byteAt p.block j) ∧
      (∀ j, j < p.memStart + idx * tySize → j ≠ idx / 8 →
        byteAt p1.block j = byteAt p.block j) ∧
      p1.liveCount = p.liveCount + 1 ∧
      p1.size = p1.liveCount := by
  obtain ⟨k0, hk0, hb0⟩ := hfree
  have hlt : p.liveCount < p.capacity := count_lt_of_false hk0 hb0
  have hsz : p.size < p.capacity := by omega
  have hnotfull : ¬ ((p.size + 1) % U64 > p.capacity) := by
    rw [mod_U64_eq (by omega)]
    omega
  obtain ⟨idx, p1, hrun, hidx, hbidx, hminb, hc, hi, hs, hl, hchar, hcons,
    htail, hmid, hcount⟩ :=
    FTA.getScan_spec tySize cid defBytes p hwf hty htyle ⟨k0, hk0, hb0⟩
  have hs' : p1.size = p.size + 1 := by
    rw [hs, mod_U64_eq (by omega)]
  refine ⟨idx, p1, ?_, hidx, hbidx, hminb, hc, hi, hs', hl, hchar, hcons,
    htail, hmid, hcount, by omega⟩
  simp only [FTA.Get]
  rw [if_neg hnotfull]
  exact hrun

theorem FTA.Get_full_grow (tySize cid : Nat) (defBytes : List Nat) (p : Pool)
    (hwf : p.wf) (hinv : p.size = p.liveCount) (hfull : p.size = p.capacity)
    (hpos : 0 < p.capacity) (hcap2 : p.capacity * 2 < U64)
    (hty : defBytes.length = tySize) (htyeq : tySize = p.poolItemSize) :
    ∃ p1,
      FTA.Get true tySize defBytes cid p = Except.ok (⟨p.capacity, cid⟩, p1) ∧
      p1.capacity = p.capacity * 2 ∧ p1.poolItemSize = p.poolItemSize ∧
      p1.size = p.size + 1 ∧ p1.size = p1.liveCount ∧
      (∀ k < p.capacity, p1.bit k = p.bit k) ∧
      (∀ j < p.capacity / 8, byteAt p1.block j = byteAt p.block j) ∧
      (∀ t < p.poolItemSize * p.capacity,
        byteAt p1.block (p.capacity * 2 / 8 + t)
          = byteAt p.block (p.capacity / 8 + t)) ∧
      p1.block.length = p.capacity * 2 / 8 + p.poolItemSize * (p.capacity * 2) := by
  obtain ⟨hlen, h8, hb⟩ := hwf
  have hall : ∀ k < p.capacity, p.bit k = true := by
    apply all_true_of_count_eq
    show p.liveCount = p.capacity
    omega
  have hfullchk : (p.size + 1) % U64 > p.capacity := by
    rw [mod_U64_eq (by omega)]
    omega
  obtain ⟨hRc, hRs, hRi, hRwf, hRlut, hRzero, hRmem, hRkeep, hRnew, hRcount⟩ :=
    Pool.Reallocate_spec p ⟨hlen, h8, hb⟩ hcap2
  have hfree' : ∃ k, k < (p.Reallocate).capacity ∧ (p.Reallocate).bit k = false := by
    refine ⟨p.capacity, ?_, hRnew p.capacity (Nat.le_refl _) (by omega)⟩
    rw [hRc]
    omega
  obtain ⟨idx, p1, hrun, hidx, hbidx, hminb, hc, hi, hs, hl, hchar, hcons,
    htail, hmid, hcount⟩ :=
    FTA.getScan_spec tySize cid defBytes p.Reallocate hRwf hty
      (by rw [hRi, ← htyeq]) hfree'
  have hidxeq : idx = p.capacity := by
    rcases Nat.lt_trichotomy idx p.capacity with h | h | h
    · exfalso
      have h1 := hRkeep idx h
      rw [hbidx] at h1
      have h2 := hall idx h
      rw [h2] at h1
      cases h1
    · exact h
    · exfalso
      have h1 := hminb p.capacity h
      have h2 := hRnew p.capacity (Nat.le_refl _) (by omega)
      rw [h2] at h1
      cases h1
  subst hidxeq
  have hms' : (p.Reallocate).memStart = p.capacity * 2 / 8 := by
    show (p.Reallocate).capacity / 8 = _
    rw [hRc]
  have hsz1 : p1.size = p.size + 1 := by
    rw [hs, hRs, mod_U64_eq (by omega)]
  obtain ⟨hRlen, hR8, hRb⟩ := hRwf
  have hlen1 : p1.block.length
      = p.capacity * 2 / 8 + p.poolItemSize * (p.capacity * 2) := by
    rw [hl]
    rw [hRc, hRi] at hRlen
    exact hRlen
  refine ⟨p1, ?_, by rw [hc, hRc], by rw [hi, hRi], hsz1, ?_, ?_, ?_, ?_, hlen1⟩
  · simp only [FTA.Get]
    rw [if_pos hfullchk]
    exact hrun
  · rw [hsz1, hcount, hRcount]
    omega
  · intro k hk
    have h1 := hchar k (by rw [hRc]; omega)
    rw [h1, hRkeep k hk]
    have hne : ¬ (k = p.capacity) := by omega
    simp [hne]
  · intro j hj
    have hjlt : j < (p.Reallocate).memStart + p.capacity * tySize := by
      rw [hms']
      have hle : p.capacity / 8 ≤ p.capacity * 2 / 8 := by omega
      omega
    rw [hmid j hjlt (by omega), hRlut j hj]
  · intro t ht
    have hjlt : p.capacity * 2 / 8 + t
        < (p.Reallocate).memStart + p.capacity * tySize := by
      rw [hms', htyeq]
      have hcomm : p.capacity * p.poolItemSize = p.poolItemSize * p.capacity :=
        Nat.mul_comm _ _
      omega
    rw [hmid _ hjlt (by omega), hRmem t ht]

/-! Segments of the object region. -/

theorem byteAt_eq_getElem {l : List Nat} {i : Nat} (h : i < l.length) :
    l[i] = byteAt l i := by
  unfold byteAt
  rw [List.getD_eq_getElem?_getD, List.getElem?_eq_getElem h]
  rfl

theorem segment_length {l : List Nat} {off len : Nat} (h : off + len ≤ l.length) :
    (segment l off len).length = len := by
  unfold segment
  rw [List.length_take, List.length_drop]
  omega

theorem segment_eq {l1 l2 : List Nat} {off1 off2 len : Nat}
    (h1 : off1 + len ≤ l1.length) (h2 : off2 + len ≤ l2.length)
    (h : ∀ t < len, byteAt l1 (off1 + t) = byteAt l2 (off2 + t)) :
    segment l1 off1 len = segment l2 off2 len := by
  apply List.ext_getElem
  · rw [segment_length h1, segment_length h2]
  · intro i hi1 hi2
    have hi : i < len := by rw [segment_length h1] at hi1; exact hi1
    rw [byteAt_eq_getElem hi1, byteAt_eq_getElem hi2]
    unfold segment
    rw [byteAt_take hi, byteAt_take hi, byteAt_drop, byteAt_drop]
    exact h i hi

/-! The `m_Pools` map of the general-purpose allocator. -/

theorem find?_map_setEntry (pools : List (Nat × Pool)) (s t : Nat) (p : Pool)
    (hne : t ≠ s) :
    (pools.map (fun q => if q.1 = s then (s, p) else q)).find?
        (fun q => q.1 == t)
      = pools.find? (fun q => q.1 == t) := by
  induction pools with
  | nil => rfl
  | cons q rest ih =>
    rw [List.map_cons]
    by_cases hq : q.1 = s
    · rw [if_pos hq]
      rw [List.find?_cons_of_neg _ (by simp; exact fun h => hne h.symm),
        List.find?_cons_of_neg _ (by simp [hq]; exact fun h => hne h.symm)]
      exact ih
    · rw [if_neg hq]
      by_cases ht : q.1 = t
      · rw [List.find?_cons_of_pos _ (by simp [ht]),
          List.find?_cons_of_pos _ (by simp [ht])]
      · rw [List.find?_cons_of_neg _ (by simp [ht]),
          List.find?_cons_of_neg _ (by simp [ht])]
        exact ih

theorem find?_map_setEntry_self (pools : List (Nat × Pool)) (s : Nat) (p : Pool) :
    (pools.map (fun q => if q.1 = s then (s, p) else q)).find?
        (fun q => q.1 == s)
      = (pools.find? (fun q => q.1 == s)).map (fun _ => (s, p)) := by
  induction pools with
  | nil => rfl
  | cons q rest ih =>
    rw [List.map_cons]
    by_cases hq : q.1 = s
    · rw [if_pos hq, List.find?_cons_of_pos _ (by simp),
        List.find?_cons_of_pos _ (by simp [hq])]
      rfl
    · rw [if_neg hq, List.find?_cons_of_neg _ (by simp [hq]),
        List.find?_cons_of_neg _ (by simp [hq])]
      exact ih

theorem Gpa.getPool_setPool_ne (g : Gpa) (s : Nat) (p : Pool) (t : Nat)
    (hne : t ≠ s) : (g.setPool s p).getPool t = g.getPool t := by
  simp only [Gpa.getPool, Gpa.setPool]
  rw [find?_map_setEntry g.pools s t p hne]

theorem Gpa.getPool_setPool_self (g : Gpa) (s : Nat) (p : Pool)
    (hpresent : (g.pools.find? (fun q => q.1 == s)).isSome = true) :
    (g.setPool s p).getPool s = p := by
  simp only [Gpa.getPool, Gpa.setPool]
  rw [find?_map_setEntry_self]
  obtain ⟨q, hq⟩ := Option.isSome_iff_exists.mp hpresent
  rw [hq]
  rfl

theorem Gpa.getPool_setPool_getPool (g : Gpa) (s t : Nat) :
    (g.setPool s (g.getPool s)).getPool t = g.getPool t := by
  by_cases hne : t = s
  · subst hne
    by_cases hp : (g.pools.find? (fun q => q.1 == t)).isSome = true
    · rw [Gpa.getPool_setPool_self g t _ hp]
    · have hnone : g.pools.find? (fun q => q.1 == t) = none := by
        cases hfind : g.pools.find? (fun q => q.1 == t) with
        | none => rfl
        | some q => rw [hfind] at hp; simp at hp
      simp only [Gpa.getPool, Gpa.setPool]
      rw [find?_map_setEntry_self, hnone]
      rfl
  · exact Gpa.getPool_setPool_ne g s _ t hne

/-! Size-class resolution. -/

theorem ResolvePool_spec (classes : List Nat) (t : Nat)
    (hsort : List.Sorted (· ≤ ·) classes) :
    ((∃ s ∈ classes, t ≤ s) →
      ∃ m, ResolvePool classes t = Except.ok m ∧ m ∈ classes ∧ t ≤ m ∧
        ∀ s ∈ classes, t ≤ s → m ≤ s) ∧
    ((∀ s ∈ classes, s < t) →
      ResolvePool classes t = Except.error AllocError.badAlloc) := by
  induction classes with
  | nil =>
    constructor
    · rintro ⟨s, hs, -⟩
      cases hs
    · intro _
      rfl
  | cons c rest ih =>
    rw [List.sorted_cons] at hsort
    obtain ⟨hc, hrest⟩ := hsort
    constructor
    · rintro ⟨s, hs, hts⟩
      by_cases htc : t ≤ c
      · refine ⟨c, ?_, List.mem_cons_self c rest, htc, ?_⟩
        · simp [ResolvePool, htc]
        · intro s' hs' hts'
          rcases List.mem_cons.mp hs' with rfl | hmem
          · exact Nat.le_refl _
          · exact hc s' hmem
      · have hsrest : s ∈ rest := by
          rcases List.mem_cons.mp hs with rfl | h
          · exact absurd hts htc
          · exact h
        obtain ⟨m, hm1, hm2, hm3, hm4⟩ := (ih hrest).1 ⟨s, hsrest, hts⟩
        refine ⟨m, ?_, List.mem_cons_of_mem c hm2, hm3, ?_⟩
        · simp [ResolvePool, htc, hm1]
        · intro s' hs'' hts'
          rcases List.mem_cons.mp hs'' with rfl | hmem
          · exact absurd hts' htc
          · exact hm4 s' hmem hts'
    · intro hall
      have hct : c < t := hall c (List.mem_cons_self c rest)
      simp only [ResolvePool, if_neg (Nat.not_le.mpr hct)]
      exact (ih hrest).2 (fun s hs => hall s (List.mem_cons_of_mem c hs))

/-! Claim theorems. -/

/-- C1, counterexample: the claim says a free (`Pop`) of a handle whose bitmap
bit is already clear must fail as a detected usage-contract violation and never
silently do nothing.  On the code it is silently ignored: on a fresh
`Pool(1, 8)` (all bits clear), `Pop` of the slot-0 handle returns normally,
leaves the pool byte-for-byte and `size` unchanged, and does not even zero the
caller's handle. -/
theorem C1_counterexample :
    FTA.Pop 1 (Pool.create 1 8) ⟨0, some 0⟩
      = Except.ok (⟨0, some 0⟩, Pool.create 1 8) := by
  rfl

/-- C1, amended: for every handle that passes `Pop`'s bounds check and whose
addressed bitmap flag (`1 << boxOffset` in byte `pLut[boxIdx]`) is already
clear, `Pop` silently does nothing: no error is raised (distinctly or
otherwise), the bitmap and `size` are left unchanged, and the caller's handle
is not zeroed — the double-free goes completely undetected. -/
theorem C1_pop_double_free_silently_ignored (tySize : Nat) (p : Pool)
    (el : OPtr) (hin : el.offset ≤ p.capacity)
    (hclear : Nat.testBit
      (byteAt p.block (if el.offset = 0 then 0 else el.offset / 8 % p.capacity))
      (if el.offset = 0 then 0 else el.offset % 8) = false) :
    FTA.Pop tySize p el = Except.ok (el, p) :=
  FTA.Pop_clear tySize p el hin hclear

theorem C1_witness :
    FTA.Pop 1 ⟨8, 3, 1, [11, 0, 0, 0, 0, 0, 0, 0, 0]⟩ ⟨2, some 0⟩
      = Except.ok (⟨2, some 0⟩, ⟨8, 3, 1, [11, 0, 0, 0, 0, 0, 0, 0, 0]⟩) :=
  C1_pop_double_free_silently_ignored 1 ⟨8, 3, 1, [11, 0, 0, 0, 0, 0, 0, 0, 0]⟩
    ⟨2, some 0⟩ (by decide) (by decide)

/-- C2, counterexample: the claim says every handle whose address falls outside
`[base, base + capacity)` — in particular slot index exactly `capacity` — makes
`Pop` fail with a bounds error without mutating `size` or the bitmap.  The
code's check is `pElement > pMem + capacity`, so offset `capacity` passes it:
on a full `capacity = 8` pool whose first object byte is 1, `Pop` at offset 8
returns without any error, flips that object byte (one past the bitmap) and
decrements `size` from 8 to 7. -/
theorem C2_counterexample :
    FTA.Pop 1 ⟨8, 8, 1, [255, 1, 0, 0, 0, 0, 0, 0, 0]⟩ ⟨8, some 0⟩
      = Except.ok (OPtr.unbound, ⟨8, 7, 1, [255, 0, 0, 0, 0, 0, 0, 0, 0]⟩) := by
  rfl

/-- C2, amended: `Pop` raises the bounds error (`std::out_of_range`) exactly
when the resolved address lies strictly beyond `pMem + capacity` — the check is
inclusive at the upper end, so the range it accepts is
`[base, base + capacity]`, not the half-open `[base, base + capacity)` — and an
erroring `Pop` propagates the exception before touching `size` or the bitmap.
Every handle with offset at most `capacity`, including offset exactly
`capacity`, passes the check and `Pop` returns normally on it. -/
theorem C2_pop_bounds_check_inclusive (tySize : Nat) (ht : 0 < tySize)
    (p : Pool) (el : OPtr) :
    (FTA.Pop tySize p el = Except.error AllocError.outOfRange
      ↔ p.capacity < el.offset) ∧
    (el.offset ≤ p.capacity → ∃ r, FTA.Pop tySize p el = Except.ok r) :=
  ⟨FTA.Pop_error_iff tySize ht p el, FTA.Pop_ok_of_le tySize p el⟩

theorem C2_witness :
    (FTA.Pop 2 (Pool.create 2 8) ⟨9, some 0⟩
      = Except.error AllocError.outOfRange) ∧
    ∃ r, FTA.Pop 2 (Pool.create 2 8) ⟨8, some 0⟩ = Except.ok r :=
  ⟨(C2_pop_bounds_check_inclusive 2 (by decide) (Pool.create 2 8)
      ⟨9, some 0⟩).1.mpr (by decide),
   (C2_pop_bounds_check_inclusive 2 (by decide) (Pool.create 2 8)
      ⟨8, some 0⟩).2 (by decide)⟩

/-- C7: whenever `size == capacity` and growth is disabled
(`Reallocates = false`), `Get` returns the default-constructed handle —
unbound: null container and offset 0, so callers can check for that state —
and leaves the pool (capacity, size and the whole block, bitmap included)
unchanged. -/
theorem C7_full_pool_no_growth_returns_unbound (tySize cid : Nat)
    (defBytes : List Nat) (p : Pool) (hfull : p.size = p.capacity)
    (hcap : p.capacity + 1 < U64) :
    FTA.Get false tySize defBytes cid p = Except.ok (OPtr.unbound, p) ∧
    OPtr.unbound.container = none ∧ OPtr.unbound.offset = 0 := by
  refine ⟨?_, rfl, rfl⟩
  simp only [FTA.Get]
  rw [if_pos (by rw [hfull, mod_U64_eq hcap]; omega)]
  rfl

theorem C7_witness :
    FTA.Get false 1 [7] 0 ⟨8, 8, 1, [255, 0, 0, 0, 0, 0, 0, 0, 0]⟩
      = Except.ok (OPtr.unbound, ⟨8, 8, 1, [255, 0, 0, 0, 0, 0, 0, 0, 0]⟩) :=
  (C7_full_pool_no_growth_returns_unbound 1 0 [7]
    ⟨8, 8, 1, [255, 0, 0, 0, 0, 0, 0, 0, 0]⟩ (by decide) (by decide)).1

/-- C8: over an ascending class list, `ResolvePool` returns the smallest
configured class at least `sizeof(Type)` (first match of the linear scan), and
fails with the allocation-exhausted `std::bad_alloc` when `sizeof(Type)`
exceeds every class; `New` and `Delete` resolve the class through the same
function of the same type size, so `Delete<Type>` always picks the class
`New<Type>` picked.  With classes {8, 16, 32, 64, 128, 256}, a 20-byte type
routes to 32 and a 300-byte type fails (see the witness). -/
theorem C8_resolve_pool_smallest_class (classes : List Nat) (t : Nat)
    (hsort : List.Sorted (· ≤ ·) classes) :
    ((∃ s ∈ classes, t ≤ s) →
      ∃ m, ResolvePool classes t = Except.ok m ∧ m ∈ classes ∧ t ≤ m ∧
        ∀ s ∈ classes, t ≤ s → m ≤ s) ∧
    ((∀ s ∈ classes, s < t) →
      ResolvePool classes t = Except.error AllocError.badAlloc) ∧
    Gpa.classForNew classes t = Gpa.classForDelete classes t := by
  obtain ⟨h1, h2⟩ := ResolvePool_spec classes t hsort
  exact ⟨h1, h2, rfl⟩

theorem C8_witness :
    ResolvePool [8, 16, 32, 64, 128, 256] 20 = Except.ok 32 ∧
    ResolvePool [8, 16, 32, 64, 128, 256] 300
      = Except.error AllocError.badAlloc ∧
    (∃ m, ResolvePool [8, 16, 32, 64, 128, 256] 20 = Except.ok m ∧
      m ∈ [8, 16, 32, 64, 128, 256] ∧ 20 ≤ m ∧
      ∀ s ∈ [8, 16, 32, 64, 128, 256], 20 ≤ s → m ≤ s) := by
  refine ⟨by rfl, ?_, ?_⟩
  · exact (C8_resolve_pool_smallest_class [8, 16, 32, 64, 128, 256] 300
      (by decide)).2.1 (by decide)
  · exact (C8_resolve_pool_smallest_class [8, 16, 32, 64, 128, 256] 20
      (by decide)).1 ⟨32, by decide, by decide⟩

/-- C10: `Delete` zeroes the caller's handle on every run that returns (the
`oPtr.ZeroOut()` is unconditional, after `Pop`): whenever `Delete` yields a
result, the returned handle is the unbound one.  In particular on a
double-free: when the addressed bitmap flag of the resolved class pool is
already clear, the inner `Pop` returns having changed nothing, `Delete`
returns normally, every pool of the allocator is unchanged — and the handle is
still zeroed. -/
theorem C10_delete_always_zeroes_handle (g : Gpa) (tySize : Nat) (el : OPtr) :
    (∀ g1 el1, Gpa.Delete g tySize el = Except.ok (g1, el1) →
      el1 = OPtr.unbound) ∧
    (∀ s, Gpa.classForDelete g.classes tySize = Except.ok s →
      el.offset ≤ (g.getPool s).capacity →
      Nat.testBit (byteAt (g.getPool s).block
          (if el.offset = 0 then 0
           else el.offset / 8 % (g.getPool s).capacity))
        (if el.offset = 0 then 0 else el.offset % 8) = false →
      Gpa.Delete g tySize el
        = Except.ok (g.setPool s (g.getPool s), OPtr.unbound) ∧
      ∀ t, (g.setPool s (g.getPool s)).getPool t = g.getPool t) := by
  constructor
  · intro g1 el1 hdel
    cases hres : Gpa.classForDelete g.classes tySize with
    | error e =>
      simp only [Gpa.Delete, hres] at hdel
      cases hdel
    | ok s =>
      cases hpop : FTA.Pop tySize (g.getPool s) ⟨el.offset, some s⟩ with
      | error e =>
        simp only [Gpa.Delete, hres, hpop] at hdel
        cases hdel
      | ok r =>
        obtain ⟨a, b⟩ := r
        simp only [Gpa.Delete, hres, hpop, Except.ok.injEq, Prod.mk.injEq] at hdel
        rw [← hdel.2]
        rfl
  · intro s hres hin hclear
    have hpop := FTA.Pop_clear tySize (g.getPool s) ⟨el.offset, some s⟩ hin hclear
    constructor
    · simp only [Gpa.Delete, hres, hpop]
      rfl
    · exact fun t => Gpa.getPool_setPool_getPool g s t

theorem C10_witness :
    (∃ g1 : Gpa, Gpa.Delete (Gpa.init [8, 16] 8) 5 ⟨0, some 8⟩
      = Except.ok (g1, OPtr.unbound)) ∧
    (∀ t, ((Gpa.init [8, 16] 8).setPool 8
        ((Gpa.init [8, 16] 8).getPool 8)).getPool t
      = (Gpa.init [8, 16] 8).getPool t) := by
  have h := (C10_delete_always_zeroes_handle (Gpa.init [8, 16] 8) 5
    ⟨0, some 8⟩).2 8 (by rfl) (by decide) (by decide)
  exact ⟨⟨_, h.1⟩, h.2⟩

/-- C5: on any pool state satisfying the data-model invariant
(`size == popcount(bitmap)`) with at least one clear bitmap bit, `Get` (in
either growth mode) claims exactly the lowest-indexed free slot: it returns a
handle bound to the pool and that slot index, the claimed bit was clear and
every lower bit set (first-fit), afterwards exactly that bit is newly set and
no other bitmap bit changed, `size` grew by exactly one, and the
default-constructed element image was written in place at the claimed slot. -/
theorem C5_get_first_fit (r : Bool) (tySize cid : Nat) (defBytes : List Nat)
    (p : Pool) (hwf : p.wf) (hinv : p.size = p.liveCount)
    (hcap : p.capacity < U64) (hty : defBytes.length = tySize)
    (htyle : tySize ≤ p.poolItemSize)
    (hfree : ∃ k, k < p.capacity ∧ p.bit k = false) :
    ∃ idx p1,
      FTA.Get r tySize defBytes cid p = Except.ok (⟨idx, some cid⟩, p1) ∧
      p.bit idx = false ∧ (∀ k < idx, p.bit k = true) ∧ idx < p.capacity ∧
      p1.bit idx = true ∧ (∀ k < p.capacity, k ≠ idx → p1.bit k = p.bit k) ∧
      p1.size = p.size + 1 ∧ p1.capacity = p.capacity ∧
      (∀ t < tySize,
        byteAt p1.block (p.memStart + idx * tySize + t) = byteAt defBytes t) := by
  obtain ⟨idx, p1, hrun, hidx, hbidx, hminb, hc, hi, hs, hl, hchar, hcons,
    htail, hmid, hcount, hinv1⟩ :=
    FTA.Get_spec r tySize cid defBytes p hwf hinv hcap hty htyle hfree
  refine ⟨idx, p1, hrun, hbidx, hminb, hidx, ?_, ?_, hs, hc, hcons⟩
  · rw [hchar idx hidx]
    simp
  · intro k hk hne
    rw [hchar k hk]
    simp [hne]

theorem C5_witness :
    ∃ idx p1,
      FTA.Get false 1 [42] 0 (⟨8, 2, 1, [5, 7, 0, 9, 0, 0, 0, 0, 0]⟩ : Pool)
        = Except.ok (⟨idx, some 0⟩, p1) ∧
      (⟨8, 2, 1, [5, 7, 0, 9, 0, 0, 0, 0, 0]⟩ : Pool).bit idx = false ∧
      (∀ k < idx, (⟨8, 2, 1, [5, 7, 0, 9, 0, 0, 0, 0, 0]⟩ : Pool).bit k = true) ∧
      idx < 8 ∧ p1.bit idx = true ∧
      (∀ k < 8, k ≠ idx →
        p1.bit k = (⟨8, 2, 1, [5, 7, 0, 9, 0, 0, 0, 0, 0]⟩ : Pool).bit k) ∧
      p1.size = 3 ∧ p1.capacity = 8 ∧
      (∀ t < 1, byteAt p1.block (1 + idx * 1 + t) = byteAt [42] t) :=
  C5_get_first_fit false 1 0 [42] ⟨8, 2, 1, [5, 7, 0, 9, 0, 0, 0, 0, 0]⟩
    (by decide) (by decide) (by decide) (by decide) (by decide)
    ⟨1, by decide, by decide⟩

/-- C6, counterexample: the claim says every operation preserves
`size == popcount(bitmap)`; `Pop` on a handle at offset exactly `capacity`
does not.  On an invariant-satisfying full pool (`capacity = 8`,
`size = 8 = popcount`, element size 2) whose first object byte is 1, `Pop` at
offset 8 passes the inclusive bounds check, reads that object byte as a
bitmap byte, flips its bit and decrements `size` to 7 while the real bitmap
still has popcount 8. -/
theorem C6_counterexample :
    (⟨8, 8, 2, [255, 1, 0, 0, 0, 0, 0, 0, 0, 0, 0, 0, 0, 0, 0, 0, 0]⟩ :
        Pool).size
      = (⟨8, 8, 2, [255, 1, 0, 0, 0, 0, 0, 0, 0, 0, 0, 0, 0, 0, 0, 0, 0]⟩ :
        Pool).liveCount ∧
    FTA.Pop 2 ⟨8, 8, 2, [255, 1, 0, 0, 0, 0, 0, 0, 0, 0, 0, 0, 0, 0, 0, 0, 0]⟩
        ⟨8, some 0⟩
      = Except.ok (OPtr.unbound,
          ⟨8, 7, 2, [255, 0, 0, 0, 0, 0, 0, 0, 0, 0, 0, 0, 0, 0, 0, 0, 0]⟩) ∧
    ¬ ((⟨8, 7, 2, [255, 0, 0, 0, 0, 0, 0, 0, 0, 0, 0, 0, 0, 0, 0, 0, 0]⟩ :
        Pool).size
      = (⟨8, 7, 2, [255, 0, 0, 0, 0, 0, 0, 0, 0, 0, 0, 0, 0, 0, 0, 0, 0]⟩ :
        Pool).liveCount) :=
  ⟨by decide, by rfl, by decide⟩

/-- C6, amended: the invariant `size == popcount(bitmap)` holds for a freshly
constructed pool (size 0, all bits clear) and is preserved by `Get` in either
growth mode (sets one clear bit and increments `size`, or grows first, or
returns the unbound handle unchanged), by `Reallocate` (copies the bits,
leaves `size`), and by `Pop` for every handle whose offset is not exactly
`capacity`: an out-of-range offset raises the bounds error before any
mutation, an in-range set bit is cleared together with a `size` decrement, and
an in-range clear bit is silently ignored with no mutation.  The boundary
offset `capacity` is excluded: there `Pop` can decrement `size` without
clearing a bitmap bit (see the counterexample). -/
theorem C6_invariant_preservation :
    (∀ es c, (Pool.create es c).size = (Pool.create es c).liveCount) ∧
    (∀ (r : Bool) tySize cid (defBytes : List Nat) (p : Pool),
      p.wf → p.size = p.liveCount → p.capacity * 2 < U64 →
      defBytes.length = tySize → tySize ≤ p.poolItemSize →
      ∀ h p1, FTA.Get r tySize defBytes cid p = Except.ok (h, p1) →
        p1.size = p1.liveCount) ∧
    (∀ p : Pool, p.wf → p.size = p.liveCount → p.capacity * 2 < U64 →
      (p.Reallocate).size = (p.Reallocate).liveCount) ∧
    (∀ tySize (p : Pool) (el : OPtr), 0 < tySize → p.wf →
      p.size = p.liveCount → p.capacity < U64 → el.offset ≠ p.capacity →
      ∀ h p1, FTA.Pop tySize p el = Except.ok (h, p1) →
        p1.size = p1.liveCount) := by
  have hcreate : ∀ es c, (Pool.create es c).size = (Pool.create es c).liveCount := by
    intro es c
    show 0 = ((List.range c).filter (fun k => (Pool.create es c).bit k)).length
    rw [List.filter_eq_nil_iff.mpr (fun a ha => by
      show ¬ ((Pool.create es c).bit a = true)
      show ¬ (Nat.testBit (byteAt (List.replicate _ 0) (a / 8)) (a % 8) = true)
      rw [byteAt_replicate_zero, Nat.zero_testBit]
      exact Bool.false_ne_true)]
    rfl
  have hrealloc : ∀ p : Pool, p.wf → p.size = p.liveCount →
      p.capacity * 2 < U64 →
      (p.Reallocate).size = (p.Reallocate).liveCount := by
    intro p hwf hinv hcap2
    obtain ⟨hRc, hRs, hRi, hRwf, hRlut, hRzero, hRmem, hRkeep, hRnew, hRcount⟩ :=
      Pool.Reallocate_spec p hwf hcap2
    rw [hRs, hRcount]
    exact hinv
  have hget : ∀ (r : Bool) tySize cid (defBytes : List Nat) (p : Pool),
      p.wf → p.size = p.liveCount → p.capacity * 2 < U64 →
      defBytes.length = tySize → tySize ≤ p.poolItemSize →
      ∀ h p1, FTA.Get r tySize defBytes cid p = Except.ok (h, p1) →
        p1.size = p1.liveCount := by
    intro r tySize cid defBytes p hwf hinv hcap2 hty htyle h p1 hrun
    have hle : p.liveCount ≤ p.capacity := count_le _ _
    have hU : (1 : Nat) < U64 := by norm_num [U64]
    by_cases hfull : (p.size + 1) % U64 > p.capacity
    · cases r with
      | false =>
        simp only [FTA.Get, if_pos hfull] at hrun
        simp only [Bool.false_eq_true, if_false, Except.ok.injEq,
          Prod.mk.injEq] at hrun
        rw [← hrun.2]
        exact hinv
      | true =>
        simp only [FTA.Get, if_pos hfull] at hrun
        simp only [if_true] at hrun
        by_cases hcpos : 0 < p.capacity
        · obtain ⟨hRc, hRs, hRi, hRwf, hRlut, hRzero, hRmem, hRkeep, hRnew,
            hRcount⟩ := Pool.Reallocate_spec p hwf hcap2
          have hfree' : ∃ k, k < (p.Reallocate).capacity ∧
              (p.Reallocate).bit k = false := by
            refine ⟨p.capacity, ?_, hRnew p.capacity (Nat.le_refl _) (by omega)⟩
            rw [hRc]
            omega
          obtain ⟨idx, p1', hrun', hidx, hbidx, hminb, hc, hi, hs, hl, hchar,
            hcons, htail, hmid, hcount⟩ :=
            FTA.getScan_spec tySize cid defBytes p.Reallocate hRwf hty
              (by rw [hRi]; exact htyle) hfree'
          rw [hrun'] at hrun
          cases hrun
          rw [hs, hcount, hRs, hRcount]
          have hszle : p.size ≤ p.capacity := by omega
          rw [mod_U64_eq (show p.size + 1 < U64 by omega)]
          omega
        · have hc0 : p.capacity = 0 := by omega
          have hc0' : (p.Reallocate).capacity = 0 := by
            show (p.capacity * 2) % U64 = 0
            rw [hc0]
            rfl
          rw [show FTA.getScan tySize defBytes cid p.Reallocate
              = Except.error AllocError.badAlloc by
            simp only [FTA.getScan, hc0', Nat.zero_div, List.take_zero]
            rfl] at hrun
          cases hrun
    · simp only [FTA.Get, if_neg hfull] at hrun
      have hszlt : p.size < p.capacity := by
        rcases Nat.lt_or_ge p.size p.capacity with hx | hx
        · exact hx
        · exfalso
          have hsz : p.size = p.capacity := by omega
          apply hfull
          rw [hsz, mod_U64_eq (show p.capacity + 1 < U64 by omega)]
          omega
      have hfree : ∃ k, k < p.capacity ∧ p.bit k = false := by
        have hlt : p.liveCount < p.capacity := by omega
        by_contra hno
        push_neg at hno
        have hall : ∀ a ∈ List.range p.capacity, p.bit a = true := by
          intro a ha
          have := hno a (List.mem_range.mp ha)
          cases hba : p.bit a with
          | false => exact absurd hba this
          | true => rfl
        have heq : (List.range p.capacity).filter (fun k => p.bit k)
            = List.range p.capacity := List.filter_eq_self.mpr hall
        have : p.liveCount = p.capacity := by
          show ((List.range p.capacity).filter (fun k => p.bit k)).length = _
          rw [heq, List.length_range]
        omega
      obtain ⟨idx, p1', hrun', hidx, hbidx, hminb, hc, hi, hs, hl, hchar,
        hcons, htail, hmid, hcount⟩ :=
        FTA.getScan_spec tySize cid defBytes p hwf hty htyle hfree
      rw [hrun'] at hrun
      cases hrun
      rw [hs, hcount, mod_U64_eq (show p.size + 1 < U64 by omega)]
      omega
  have hpop : ∀ tySize (p : Pool) (el : OPtr), 0 < tySize → p.wf →
      p.size = p.liveCount → p.capacity < U64 → el.offset ≠ p.capacity →
      ∀ h p1, FTA.Pop tySize p el = Except.ok (h, p1) →
        p1.size = p1.liveCount := by
    intro tySize p el ht hwf hinv hcap hne h p1 hrun
    obtain ⟨hlen, h8, hb⟩ := hwf
    have hle : p.liveCount ≤ p.capacity := count_le _ _
    rcases Nat.lt_trichotomy el.offset p.capacity with hlt | heq | hgt
    · by_cases hbit : p.bit el.offset = true
      · obtain ⟨p1', hrun', hc, hi, hs, hl, hbf, hch, hcount⟩ :=
          FTA.Pop_live tySize p el h8 (by omega) hlt hbit
        rw [hrun'] at hrun
        cases hrun
        have hpos : 0 < p.liveCount := count_pos_of_true hlt hbit
        rw [hs, hcount, hinv, dec_U64 (by omega) (by omega)]
      · have hbox : (if el.offset = 0 then (0 : Nat)
            else el.offset / 8 % p.capacity) = el.offset / 8 := by
          by_cases h0 : el.offset = 0
          · simp [h0]
          · rw [if_neg h0, Nat.mod_eq_of_lt (by omega)]
        have hclear : Nat.testBit (byteAt p.block
            (if el.offset = 0 then 0 else el.offset / 8 % p.capacity))
            (if el.offset = 0 then 0 else el.offset % 8) = false := by
          rw [hbox]
          have hboff : (if el.offset = 0 then (0 : Nat) else el.offset % 8)
              = el.offset % 8 := by
            by_cases h0 : el.offset = 0
            · simp [h0]
            · rw [if_neg h0]
          rw [hboff]
          cases hba : p.bit el.offset with
          | false => exact hba
          | true => exact absurd hba hbit
        rw [FTA.Pop_clear tySize p el (by omega) hclear] at hrun
        cases hrun
        exact hinv
    · exact absurd heq hne
    · rw [(FTA.Pop_error_iff tySize ht p el).mpr hgt] at hrun
      cases hrun
  exact ⟨hcreate, hget, hrealloc, hpop⟩

theorem C6_witness :
    (Pool.create 4 8).size = (Pool.create 4 8).liveCount ∧
    ((⟨8, 1, 1, [1, 0, 0, 0, 0, 0, 0, 0, 0]⟩ : Pool).Reallocate).size
      = ((⟨8, 1, 1, [1, 0, 0, 0, 0, 0, 0, 0, 0]⟩ : Pool).Reallocate).liveCount ∧
    (⟨8, 2, 1, [3, 0, 9, 0, 0, 0, 0, 0, 0]⟩ : Pool).size
      = (⟨8, 2, 1, [3, 0, 9, 0, 0, 0, 0, 0, 0]⟩ : Pool).liveCount :=
  ⟨C6_invariant_preservation.1 4 8,
   C6_invariant_preservation.2.2.1 ⟨8, 1, 1, [1, 0, 0, 0, 0, 0, 0, 0, 0]⟩
     (by decide) (by decide) (by decide),
   C6_invariant_preservation.2.1 false 1 0 [9]
     ⟨8, 1, 1, [1, 0, 0, 0, 0, 0, 0, 0, 0]⟩ (by decide) (by decide) (by decide)
     (by decide) (by decide) ⟨1, some 0⟩ ⟨8, 2, 1, [3, 0, 9, 0, 0, 0, 0, 0, 0]⟩
     (by rfl)⟩

/-- C9, counterexample: the claim says Active-mode iteration visits every
set-bit slot once, for every pool state including states reached after any
number of growths.  `ForAllActive` addresses the bitmap byte as
`pLut[(i / 8) % Size]` with the compile-time initial capacity `Size`, so once
the pool has grown past `8 * Size` slots the byte index wraps.  A
`FixedTypeAllocator<T, 8, true>` grown four times (capacity 128 — reachable by
65 allocations, here with the first 64 slots freed again) has slot 64 live
(bitmap byte 8, bit 0), but the traversal reads byte `(64 / 8) % 8 = 0`
instead of byte 8 and visits nothing: a live, invariant-satisfying,
well-formed slot is skipped entirely. -/
theorem C9_counterexample :
    (⟨128, 1, 1, List.replicate 8 0 ++ 1 :: List.replicate 135 0⟩ : Pool).wf ∧
    (⟨128, 1, 1, List.replicate 8 0 ++ 1 :: List.replicate 135 0⟩ : Pool).size
      = (⟨128, 1, 1, List.replicate 8 0 ++ 1 :: List.replicate 135 0⟩ :
          Pool).liveCount ∧
    (64 < 128 ∧
      (⟨128, 1, 1, List.replicate 8 0 ++ 1 :: List.replicate 135 0⟩ :
        Pool).bit 64 = true) ∧
    FTA.forAllActiveIdx 8
      ⟨128, 1, 1, List.replicate 8 0 ++ 1 :: List.replicate 135 0⟩ = [] :=
  ⟨by decide, by decide, ⟨by decide, by decide⟩, by decide⟩

/-- C9, amended: Active-mode iteration visits exactly the slots whose bitmap
bit is set, in ascending slot order, on every well-formed pool whose current
capacity is at most `8 * Size` (i.e. up to three doublings of the initial
capacity); beyond that the `pLut[(i / 8) % Size]` byte look-up wraps and live
slots can be skipped (see the counterexample).  The second part of the claim
holds unconditionally: on a fully packed pool (`size == capacity` under the
bitmap invariant) every bitmap byte is 255, so even a wrapped look-up reads a
fully set byte and Active mode visits all slots 0..capacity-1 in order —
exactly what Fast mode visits. -/
theorem C9_iteration_modes (Size : Nat) (p : Pool) (hwf : p.wf) :
    (p.capacity ≤ 8 * Size →
      FTA.forAllActiveIdx Size p
        = (List.range p.capacity).filter (fun i => p.bit i)) ∧
    (p.size = p.liveCount → p.size = p.capacity →
      FTA.forAllActiveIdx Size p = FTA.forAllFastIdx p) := by
  obtain ⟨hlen, h8, hb⟩ := hwf
  constructor
  · intro hcap
    unfold FTA.forAllActiveIdx
    apply List.filter_congr
    intro i hi
    have hi' : i < p.capacity := List.mem_range.mp hi
    by_cases h0 : i = 0
    · subst h0
      simp [Pool.bit]
    · simp only [if_neg h0]
      rw [Nat.mod_eq_of_lt (show i / 8 < Size by omega)]
      rfl
  · intro hinv hfull
    have hall : ∀ k < p.capacity, p.bit k = true := by
      apply all_true_of_count_eq
      show p.liveCount = p.capacity
      omega
    unfold FTA.forAllActiveIdx FTA.forAllFastIdx
    apply List.filter_eq_self.mpr
    intro i hi
    have hi' : i < p.capacity := List.mem_range.mp hi
    by_cases h0 : i = 0
    · subst h0
      have := hall 0 hi'
      simpa [Pool.bit] using this
    · simp only [if_neg h0]
      have hble : (i / 8) % Size ≤ i / 8 := Nat.mod_le _ _
      have hk : 8 * ((i / 8) % Size) + i % 8 < p.capacity := by omega
      have hbit := hall (8 * ((i / 8) % Size) + i % 8) hk
      simp only [Pool.bit] at hbit
      rw [show (8 * ((i / 8) % Size) + i % 8) / 8 = (i / 8) % Size by omega,
        show (8 * ((i / 8) % Size) + i % 8) % 8 = i % 8 by omega] at hbit
      exact hbit

theorem C9_witness :
    (FTA.forAllActiveIdx 8
        (⟨16, 3, 1, [5, 2, 0, 0, 0, 0, 0, 0, 0, 0, 0, 0, 0, 0, 0, 0, 0, 0]⟩ :
          Pool)
      = (List.range 16).filter (fun i =>
          (⟨16, 3, 1, [5, 2, 0, 0, 0, 0, 0, 0, 0, 0, 0, 0, 0, 0, 0, 0, 0, 0]⟩ :
            Pool).bit i)) ∧
    FTA.forAllActiveIdx 8
        (⟨16, 3, 1, [5, 2, 0, 0, 0, 0, 0, 0, 0, 0, 0, 0, 0, 0, 0, 0, 0, 0]⟩ :
          Pool)
      = [0, 2, 9] ∧
    FTA.forAllActiveIdx 3 (⟨8, 8, 1, [255, 0, 0, 0, 0, 0, 0, 0, 0]⟩ : Pool)
      = FTA.forAllFastIdx (⟨8, 8, 1, [255, 0, 0, 0, 0, 0, 0, 0, 0]⟩ : Pool) :=
  ⟨(C9_iteration_modes 8
      ⟨16, 3, 1, [5, 2, 0, 0, 0, 0, 0, 0, 0, 0, 0, 0, 0, 0, 0, 0, 0, 0]⟩
      (by decide)).1 (by decide),
   by decide,
   (C9_iteration_modes 3 ⟨8, 8, 1, [255, 0, 0, 0, 0, 0, 0, 0, 0]⟩
      (by decide)).2 (by decide) (by decide)⟩

/-- C3: `Reallocate` doubles `capacity`, copies the old bitmap bytes and old
object-region bytes verbatim into the corresponding prefixes of the new block
(the bitmap at offset 0, the object region at the new `capacity / 8`), and
leaves the newly added bitmap bytes zeroed, so every new slot is free.
Consequently every previously returned handle still resolves, via its
unchanged slot index against the moved object-region base, to an object whose
bytes are unchanged: `slotBytes` is preserved for every old slot index.  And
for the allocation that triggers growth: `Get` on a full invariant-satisfying
pool grows, claims the first fresh slot (index = old capacity), and every old
slot still resolves to its unchanged bytes afterwards. -/
theorem C3_grow_preserves_data :
    (∀ p : Pool, p.wf → p.capacity * 2 < U64 →
      (p.Reallocate).capacity = p.capacity * 2 ∧
      (p.Reallocate).size = p.size ∧
      (∀ j < p.capacity / 8, byteAt (p.Reallocate).block j = byteAt p.block j) ∧
      (∀ j, p.capacity / 8 ≤ j → j < p.capacity * 2 / 8 →
        byteAt (p.Reallocate).block j = 0) ∧
      (∀ t < p.poolItemSize * p.capacity,
        byteAt (p.Reallocate).block (p.capacity * 2 / 8 + t)
          = byteAt p.block (p.capacity / 8 + t)) ∧
      (∀ k, p.capacity ≤ k → k < p.capacity * 2 →
        (p.Reallocate).bit k = false) ∧
      (∀ i < p.capacity,
        (p.Reallocate).slotBytes p.poolItemSize i
          = p.slotBytes p.poolItemSize i)) ∧
    (∀ tySize cid (defBytes : List Nat) (p : Pool),
      p.wf → p.size = p.liveCount → p.size = p.capacity → 0 < p.capacity →
      p.capacity * 2 < U64 → defBytes.length = tySize →
      tySize = p.poolItemSize →
      ∃ p1, FTA.Get true tySize defBytes cid p
          = Except.ok (⟨p.capacity, cid⟩, p1) ∧
        ∀ i < p.capacity,
          p1.slotBytes p.poolItemSize i = p.slotBytes p.poolItemSize i) := by
  constructor
  · intro p hwf hcap2
    obtain ⟨hRc, hRs, hRi, hRwf, hRlut, hRzero, hRmem, hRkeep, hRnew,
      hRcount⟩ := Pool.Reallocate_spec p hwf hcap2
    obtain ⟨hRlen, hR8, hRb⟩ := hRwf
    rw [hRc, hRi] at hRlen
    refine ⟨hRc, hRs, hRlut, hRzero, hRmem, hRnew, ?_⟩
    intro i hi
    unfold Pool.slotBytes
    have hmsR : (p.Reallocate).memStart = p.capacity * 2 / 8 := by
      show (p.Reallocate).capacity / 8 = _
      rw [hRc]
    have hms : p.memStart = p.capacity / 8 := rfl
    rw [hmsR, hms]
    have hA : i * p.poolItemSize + p.poolItemSize
        ≤ p.capacity * p.poolItemSize := by
      have h1 : (i + 1) * p.poolItemSize ≤ p.capacity * p.poolItemSize :=
        Nat.mul_le_mul_right _ (Nat.succ_le_of_lt hi)
      rw [Nat.succ_mul] at h1
      exact h1
    have hcomm : p.capacity * p.poolItemSize = p.poolItemSize * p.capacity :=
      Nat.mul_comm _ _
    have hmc2 : p.poolItemSize * (p.capacity * 2)
        = p.poolItemSize * p.capacity * 2 := by ring
    apply segment_eq
    · rw [hRlen]
      omega
    · rw [hwf.1]
      omega
    · intro t ht
      have h1 : i * p.poolItemSize + t < p.poolItemSize * p.capacity := by
        omega
      have h2 := hRmem (i * p.poolItemSize + t) h1
      rw [Nat.add_assoc, Nat.add_assoc]
      exact h2
  · intro tySize cid defBytes p hwf hinv hfull hpos hcap2 hty htyeq
    obtain ⟨p1, hrun, hc1, hi1, hs1, hinv1, hbits, hlut1, hmem1, hlen1⟩ :=
      FTA.Get_full_grow tySize cid defBytes p hwf hinv hfull hpos hcap2 hty
        htyeq
    refine ⟨p1, hrun, ?_⟩
    intro i hi
    unfold Pool.slotBytes
    have hms1 : p1.memStart = p.capacity * 2 / 8 := by
      show p1.capacity / 8 = _
      rw [hc1]
    have hms : p.memStart = p.capacity / 8 := rfl
    rw [hms1, hms]
    have hA : i * p.poolItemSize + p.poolItemSize
        ≤ p.capacity * p.poolItemSize := by
      have h1 : (i + 1) * p.poolItemSize ≤ p.capacity * p.poolItemSize :=
        Nat.mul_le_mul_right _ (Nat.succ_le_of_lt hi)
      rw [Nat.succ_mul] at h1
      exact h1
    have hcomm : p.capacity * p.poolItemSize = p.poolItemSize * p.capacity :=
      Nat.mul_comm _ _
    have hmc2 : p.poolItemSize * (p.capacity * 2)
        = p.poolItemSize * p.capacity * 2 := by ring
    apply segment_eq
    · rw [hlen1]
      omega
    · rw [hwf.1]
      omega
    · intro t ht
      have h1 : i * p.poolItemSize + t < p.poolItemSize * p.capacity := by
        omega
      have h2 := hmem1 (i * p.poolItemSize + t) h1
      rw [Nat.add_assoc, Nat.add_assoc]
      exact h2

theorem C3_witness :
    ((⟨8, 5, 2, [255, 0, 1, 2, 3, 4, 5, 6, 7, 8, 9, 10, 11, 12, 13, 14,
        15]⟩ : Pool).Reallocate).capacity = 16 ∧
    (∀ i < 8,
      ((⟨8, 5, 2, [255, 0, 1, 2, 3, 4, 5, 6, 7, 8, 9, 10, 11, 12, 13, 14,
          15]⟩ : Pool).Reallocate).slotBytes 2 i
        = (⟨8, 5, 2, [255, 0, 1, 2, 3, 4, 5, 6, 7, 8, 9, 10, 11, 12, 13, 14,
          15]⟩ : Pool).slotBytes 2 i) ∧
    (∃ p1, FTA.Get true 1 [42] 0 (⟨8, 8, 1, [255, 1, 2, 3, 4, 5, 6, 7, 8]⟩ :
          Pool)
        = Except.ok (⟨8, some 0⟩, p1) ∧
      ∀ i < 8, p1.slotBytes 1 i
        = (⟨8, 8, 1, [255, 1, 2, 3, 4, 5, 6, 7, 8]⟩ : Pool).slotBytes 1 i) :=
  ⟨(C3_grow_preserves_data.1
      ⟨8, 5, 2, [255, 0, 1, 2, 3, 4, 5, 6, 7, 8, 9, 10, 11, 12, 13, 14, 15]⟩
      (by decide) (by decide)).1,
   (C3_grow_preserves_data.1
      ⟨8, 5, 2, [255, 0, 1, 2, 3, 4, 5, 6, 7, 8, 9, 10, 11, 12, 13, 14, 15]⟩
      (by decide) (by decide)).2.2.2.2.2.2,
   C3_grow_preserves_data.2 1 0 [42] ⟨8, 8, 1, [255, 1, 2, 3, 4, 5, 6, 7, 8]⟩
     (by decide) (by decide) (by decide) (by decide) (by decide) (by decide)
     (by decide)⟩

/-- C4: a handle returned by `New<Type>` resolves to exactly the address at
which the selected size-class pool's allocate constructed the object.  The
general-purpose allocator casts the stored class allocator to
`FixedTypeAllocator<Padding<sizeof(Type)>>`, so both the placement
construction inside the delegated `Get` and every later `Resolve` of the
returned handle use the same `sizeof(Type)` stride over the class pool's
object region: `Resolve` computes `pMem + index` (byte offset
`memStart + index * sizeof(Type)`, against the pool's current base), and the
bytes there are the value-initialised (all-zero) `Padding<sizeof(Type)>` image
the allocate just constructed — for every slot index, including when
`sizeof(Type)` is strictly smaller than the routed class size. -/
theorem C4_new_handle_resolves_to_constructed_slot (r : Bool) (g : Gpa)
    (tySize s : Nat)
    (hres : Gpa.classForNew g.classes tySize = Except.ok s)
    (hpresent : (g.pools.find? (fun q => q.1 == s)).isSome = true)
    (hwf : (g.getPool s).wf)
    (hinv : (g.getPool s).size = (g.getPool s).liveCount)
    (hcap : (g.getPool s).capacity < U64)
    (hstride : tySize ≤ (g.getPool s).poolItemSize)
    (hfree : ∃ k, k < (g.getPool s).capacity ∧ (g.getPool s).bit k = false) :
    ∃ idx g1,
      Gpa.New r g tySize = Except.ok (⟨idx, some s⟩, g1) ∧
      idx < (g.getPool s).capacity ∧
      (g.getPool s).bit idx = false ∧
      (g1.getPool s).bit idx = true ∧
      (g1.getPool s).memStart = (g.getPool s).memStart ∧
      (∀ t < tySize,
        byteAt (g1.getPool s).block
          ((g1.getPool s).memStart + idx * tySize + t) = 0) := by
  obtain ⟨idx, p1, hrun, hidx, hbidx, hminb, hc, hi, hs, hl, hchar, hcons,
    htail, hmid, hcount, hinv1⟩ :=
    FTA.Get_spec r tySize s (List.replicate tySize 0) (g.getPool s) hwf hinv
      hcap (by simp) hstride hfree
  have hget1 : (g.setPool s p1).getPool s = p1 :=
    Gpa.getPool_setPool_self g s p1 hpresent
  have hms1 : p1.memStart = (g.getPool s).memStart := by
    show p1.capacity / 8 = (g.getPool s).capacity / 8
    rw [hc]
  refine ⟨idx, g.setPool s p1, ?_, hidx, hbidx, ?_, ?_, ?_⟩
  · simp only [Gpa.New, hres, hrun]
  · rw [hget1, hchar idx hidx]
    simp
  · rw [hget1]
    exact hms1
  · intro t ht
    rw [hget1, hms1]
    have h1 := hcons t ht
    rw [byteAt_replicate_zero] at h1
    exact h1

theorem C4_witness :
    ∃ idx g1,
      Gpa.New true (Gpa.init [8, 16, 32] 8) 20 = Except.ok (⟨idx, some 32⟩, g1) ∧
      idx < ((Gpa.init [8, 16, 32] 8).getPool 32).capacity ∧
      ((Gpa.init [8, 16, 32] 8).getPool 32).bit idx = false ∧
      (g1.getPool 32).bit idx = true ∧
      (g1.getPool 32).memStart = ((Gpa.init [8, 16, 32] 8).getPool 32).memStart ∧
      (∀ t < 20,
        byteAt (g1.getPool 32).block
          ((g1.getPool 32).memStart + idx * 20 + t) = 0) :=
  C4_new_handle_resolves_to_constructed_slot true (Gpa.init [8, 16, 32] 8) 20
    32 (by rfl) (by rfl) (by decide) (by decide) (by decide) (by decide)
    ⟨0, by decide, by decide⟩

end TankAlloc
